import Mathlib

/-!
# Instant Harmonies — verification of the just-intonation tuning engine

A shallow embedding of the tuning engine of the Instant_Harmonies repository:
the five-limit tuning mathematics (`js/tuning-core.js`), the ensemble key
detector (`js/key-detection.js`), the MPE channel-rotation backend
(`js/tuning-mpe.js`), the MTS capability layer (`js/tuning-mts.js`), the
orchestrator paths `applyTuning` / `forwardNoteExternal` (`js/main.js`) and the
probing functions of the `script5.js` snapshot.

JavaScript numbers are modelled as exact rationals (`ℚ`) or, where the source
computes logarithms (`Math.log2`), as real numbers (`ℝ`).  JavaScript `Map`s
keyed by note ids are modelled as insertion-ordered association lists.
-/

namespace InstantHarmonies

open List

/-! ## Association-list maps (JS `Map` with insertion order) -/

/-- Lookup in an insertion-ordered association list (JS `Map.get`). -/
def amFind {β : Type} (m : List (ℕ × β)) (k : ℕ) : Option β :=
  match m with
  | [] => none
  | (k', v) :: rest => if k' = k then some v else amFind rest k

/-- JS `Map.set`: update in place if present, else append. -/
def amSet {β : Type} (m : List (ℕ × β)) (k : ℕ) (v : β) : List (ℕ × β) :=
  if (amFind m k).isSome then
    m.map (fun p => if p.1 = k then (k, v) else p)
  else
    m ++ [(k, v)]

/-- JS `Map.delete`. -/
def amDelete {β : Type} (m : List (ℕ × β)) (k : ℕ) : List (ℕ × β) :=
  m.filter (fun p => p.1 ≠ k)

/-- The keys of the map, in insertion order. -/
def amKeys {β : Type} (m : List (ℕ × β)) : List ℕ := m.map Prod.fst

/-- The values of the map, in insertion order. -/
def amValues {β : Type} (m : List (ℕ × β)) : List β := m.map Prod.snd

theorem amFind_eq_none {β : Type} (m : List (ℕ × β)) (k : ℕ) :
    amFind m k = none ↔ k ∉ amKeys m := by
  induction m with
  | nil => simp [amFind, amKeys]
  | cons p rest ih =>
    obtain ⟨k', v⟩ := p
    by_cases h : k' = k
    · simp [amFind, amKeys, h]
    · simp [amFind, amKeys, h, ih, Ne.symm h]

theorem amFind_isSome_iff {β : Type} (m : List (ℕ × β)) (k : ℕ) :
    (amFind m k).isSome ↔ k ∈ amKeys m := by
  rw [← not_iff_not, Option.not_isSome_iff_eq_none, amFind_eq_none]

theorem mem_keys_of_amFind {β : Type} {m : List (ℕ × β)} {k : ℕ} {v : β}
    (h : amFind m k = some v) : k ∈ amKeys m := by
  rw [← amFind_isSome_iff, h]; rfl

theorem amKeys_amDelete {β : Type} (m : List (ℕ × β)) (k : ℕ) :
    amKeys (amDelete m k) = (amKeys m).filter (fun x => x ≠ k) := by
  induction m with
  | nil => rfl
  | cons p rest ih =>
    by_cases h : p.1 = k
    · simpa [amDelete, amKeys, List.filter_cons, h] using ih
    · simpa [amDelete, amKeys, List.filter_cons, h] using ih

theorem amKeys_append {β : Type} (m₁ m₂ : List (ℕ × β)) :
    amKeys (m₁ ++ m₂) = amKeys m₁ ++ amKeys m₂ := by
  simp [amKeys]

theorem amValues_append {β : Type} (m₁ m₂ : List (ℕ × β)) :
    amValues (m₁ ++ m₂) = amValues m₁ ++ amValues m₂ := by
  simp [amValues]

theorem amSet_of_not_mem {β : Type} {m : List (ℕ × β)} {k : ℕ} (v : β)
    (h : k ∉ amKeys m) : amSet m k v = m ++ [(k, v)] := by
  rw [amSet, if_neg]
  simp [amFind_isSome_iff, h]

theorem mem_amValues_of_amFind {β : Type} {m : List (ℕ × β)} {k : ℕ} {v : β}
    (h : amFind m k = some v) : v ∈ amValues m := by
  induction m with
  | nil => simp [amFind] at h
  | cons p rest ih =>
    obtain ⟨k', w⟩ := p
    by_cases hk : k' = k
    · simp only [amFind, if_pos hk, Option.some.injEq] at h
      subst h
      simp [amValues]
    · simp only [amFind, if_neg hk] at h
      exact List.mem_cons_of_mem w (ih h)

/-- Deleting key `k` from a map with `Nodup` keys in which `k` maps to `v`
removes exactly one copy of `v` from the value list. -/
theorem amValues_amDelete_perm {β : Type} [DecidableEq β]
    {m : List (ℕ × β)} {k : ℕ} {v : β}
    (hnd : (amKeys m).Nodup) (h : amFind m k = some v) :
    List.Perm (amValues (amDelete m k)) ((amValues m).erase v) := by
  induction m with
  | nil => simp [amFind] at h
  | cons p rest ih =>
    obtain ⟨k', w⟩ := p
    simp only [amKeys, List.map_cons, List.nodup_cons] at hnd
    by_cases hk : k' = k
    · subst hk
      have hw : w = v := by simpa [amFind] using h
      subst hw
      have hrest : amDelete rest k' = rest := by
        rw [amDelete, List.filter_eq_self]
        intro p hp
        simp only [ne_eq, decide_eq_true_eq]
        exact fun hpk => hnd.1 (hpk ▸ List.mem_map_of_mem Prod.fst hp)
      have hdel : amDelete ((k', w) :: rest) k' = rest := by
        simp [amDelete] at hrest ⊢
        exact hrest
      rw [hdel]
      have : (amValues ((k', w) :: rest)).erase w = amValues rest := by
        show (w :: amValues rest).erase w = amValues rest
        rw [List.erase_cons_head]
      rw [this]
    · simp only [amFind, if_neg hk] at h
      have hnrest : (amKeys rest).Nodup := hnd.2
      have hrec := ih hnrest h
      have hvmem : v ∈ amValues rest := mem_amValues_of_amFind h
      have hdel : amDelete ((k', w) :: rest) k = (k', w) :: amDelete rest k := by
        simp [amDelete, hk]
      rw [hdel]
      show List.Perm (w :: amValues (amDelete rest k))
        ((w :: amValues rest).erase v)
      rcases eq_or_ne v w with hvw | hvw
      · subst hvw
        rw [List.erase_cons_head]
        exact (hrec.cons v).trans (List.perm_cons_erase hvmem).symm
      · rw [List.erase_cons_tail]
        · exact hrec.cons w
        · simp [Ne.symm hvw]

/-! ## JavaScript numeric helpers -/

/-- JS `Math.round` on rationals: round half toward positive infinity. -/
def jsRound (q : ℚ) : ℤ := ⌊q + 1 / 2⌋

/-- JS `Math.round` on reals (used where the source rounds `Math.log2` output). -/
noncomputable def jsRoundR (x : ℝ) : ℤ := ⌊x + 1 / 2⌋

/-- JS `Math.floor` on rationals. -/
def jsFloor (q : ℚ) : ℤ := ⌊q⌋

/-! ## `js/tuning-core.js` — five-limit just-intonation mathematics -/

/-- `JI_RATIOS.major` / `JI_RATIOS.minor`: the five-limit ratio for each
scale-degree interval 0–12, `none` for any other index (JS `undefined`).
The minor table differs from the major one only at the minor seventh
(degree 10): `16/9` instead of `9/5`. -/
def jiRatioTable (isMinor : Bool) (interval : ℕ) : Option ℚ :=
  match interval with
  | 0 => some 1
  | 1 => some (16 / 15)
  | 2 => some (9 / 8)
  | 3 => some (6 / 5)
  | 4 => some (5 / 4)
  | 5 => some (4 / 3)
  | 6 => some (45 / 32)
  | 7 => some (3 / 2)
  | 8 => some (8 / 5)
  | 9 => some (5 / 3)
  | 10 => some (if isMinor then 16 / 9 else 9 / 5)
  | 11 => some (15 / 8)
  | 12 => some 2
  | _ => none

/-- `ratios[interval] || 1.0`: every stored ratio is nonzero (truthy), so the
JS `||` default only applies to missing indices. -/
def jiRatio (isMinor : Bool) (interval : ℕ) : ℚ :=
  (jiRatioTable isMinor interval).getD 1

/-- `getKeyRoot(keyName)`: the `KEY_ROOTS` lookup with default 60 (JS `|| 60`;
all stored roots are nonzero, hence truthy). -/
def getKeyRoot (keyName : String) : ℕ :=
  match keyName with
  | "C" => 60 | "C#" => 61 | "Db" => 61 | "D" => 62 | "D#" => 63 | "Eb" => 63
  | "E" => 64 | "F" => 65 | "F#" => 66 | "Gb" => 66 | "G" => 67 | "G#" => 68
  | "Ab" => 68 | "A" => 69 | "A#" => 70 | "Bb" => 70 | "B" => 71
  | "Cm" => 60 | "C#m" => 61 | "Dm" => 62 | "D#m" => 63 | "Ebm" => 63
  | "Em" => 64 | "Fm" => 65 | "F#m" => 66 | "Gm" => 67 | "G#m" => 68
  | "Am" => 69 | "A#m" => 70 | "Bbm" => 70 | "Bm" => 71
  | _ => 60

/-- `isMinorKey(keyName)`: `keyName && keyName.includes('m')`; an empty name is
falsy and selects the major table, just like `contains` returning `false`. -/
def isMinorKey (keyName : String) : Bool := keyName.contains 'm'

/-- `centsToPitchBend(cents)`: scale ±200 cents onto the 14-bit bend range and
clamp to `[-8192, 8191]`.  Real-valued because callers pass `Math.log2`-derived
cents. -/
noncomputable def centsToPitchBend (cents : ℝ) : ℤ :=
  max (-8192) (min 8191 (jsRoundR (cents / 200 * 8192)))

/-- `pitchBendToCents(pitchBend)`. -/
def pitchBendToCents (pitchBend : ℤ) : ℚ := (pitchBend : ℚ) / 8192 * 200

/-- `ratioToCentsDeviation(ratio, interval)`:
`1200·log2(ratio) − 100·interval`. -/
noncomputable def ratioToCentsDeviation (ratio : ℚ) (interval : ℕ) : ℝ :=
  1200 * Real.logb 2 (ratio : ℝ) - (interval : ℝ) * 100

/-- `calculateJICentsForNote(midiNote, keyName)`.  The JS interval
`(midiNote - keyRoot + 144) % 12` is non-negative for every MIDI note and
table root, so it equals the natural-number remainder used here. -/
noncomputable def calculateJICentsForNote (midiNote : ℕ) (keyName : String) : ℝ :=
  let keyRoot := getKeyRoot keyName
  let isMin := isMinorKey keyName
  let interval := (midiNote + 144 - keyRoot) % 12
  ratioToCentsDeviation (jiRatio isMin interval) interval

/-- `calculateJIPitchBend(midiNote, keyName)`. -/
noncomputable def calculateJIPitchBend (midiNote : ℕ) (keyName : String) : ℤ :=
  centsToPitchBend (calculateJICentsForNote midiNote keyName)

/-- `calculateScaleOctaveTuning(keyRoot, isMinor)`: the 12-entry cents-deviation
table, each entry rounded to two decimals
(`Math.round(deviation * 100) / 100`). -/
noncomputable def calculateScaleOctaveTuning (keyRoot : ℕ) (isMinor : Bool)
    (pc : Fin 12) : ℝ :=
  let interval := ((pc : ℕ) + 12 - keyRoot % 12) % 12
  let ratio := jiRatio isMinor interval
  let jiCents : ℝ := 1200 * Real.logb 2 (ratio : ℝ)
  let etCents : ℝ := (interval : ℝ) * 100
  let deviation := jiCents - etCents
  (jsRoundR (deviation * 100) : ℝ) / 100

/-! ## `js/tuning-mpe.js` — per-note pitch bend via channel rotation

Note ids are modelled as natural numbers, with `0` standing for the JS falsy
values rejected by the `if (!noteId)` guards (`main.js` only ever passes
non-empty strings, i.e. truthy ids). -/

/-- `MPE_MASTER_CHANNEL`. -/
def MPE_MASTER_CHANNEL : ℕ := 0

/-- `MPE_MEMBER_CHANNELS`: channels 1–15. -/
def MPE_MEMBER_CHANNELS : List ℕ := (List.range 15).map (· + 1)

/-- The module-level mutable state of `tuning-mpe.js`. -/
structure MPEState where
  channelPool : List ℕ
  activeNotes : List (ℕ × ℕ)
  channelUsageOrder : List ℕ
  pitchBendRangeInitialized : Bool
  deriving DecidableEq, Repr

/-- `resetMPEState()`. -/
def resetMPEState : MPEState :=
  { channelPool := MPE_MEMBER_CHANNELS
    activeNotes := []
    channelUsageOrder := []
    pitchBendRangeInitialized := false }

/-- The result of `allocateChannel`: a plain channel number, a
`{ channel, reusedNoteId }` steal record, or JS `null`.  `invalid` marks the
branch where the usage-order head is missing from the active-note map — there
the JS code would store `undefined` as a channel; that state is unreachable
from `resetMPEState` (see `mpeStateInvariant_runMPEOps`), so the model returns
the state unchanged. -/
inductive AllocResult where
  | chan (channel : ℕ)
  | stolen (channel : ℕ) (reusedNoteId : ℕ)
  | null
  | invalid
  deriving DecidableEq, Repr

/-- `allocateChannel(noteId)`: LRU channel allocation with stealing. -/
def allocateChannel (s : MPEState) (noteId : ℕ) : AllocResult × MPEState :=
  if noteId = 0 then (.null, s)
  else
    match amFind s.activeNotes noteId with
    | some c =>
      -- already active: refresh the usage order and return the same channel
      (.chan c,
        { s with channelUsageOrder :=
            (s.channelUsageOrder.erase noteId) ++ [noteId] })
    | none =>
      match s.channelPool with
      | c :: rest =>
        (.chan c,
          { s with
              channelPool := rest
              activeNotes := amSet s.activeNotes noteId c
              channelUsageOrder := s.channelUsageOrder ++ [noteId] })
      | [] =>
        match s.channelUsageOrder with
        | reused :: restOrder =>
          match amFind s.activeNotes reused with
          | some c =>
            (.stolen c reused,
              { s with
                  activeNotes := amSet (amDelete s.activeNotes reused) noteId c
                  channelUsageOrder := restOrder ++ [noteId] })
          | none => (.invalid, s)
        | [] => (.null, s)

/-- `releaseChannel(noteId)`: free the note's channel and re-sort the pool
ascending (`channelPool.sort((a, b) => a - b)`). -/
def releaseChannel (s : MPEState) (noteId : ℕ) : MPEState :=
  if noteId = 0 then s
  else
    match amFind s.activeNotes noteId with
    | none => s
    | some c =>
      let m := amDelete s.activeNotes noteId
      let order := s.channelUsageOrder.erase noteId
      if c ∉ s.channelPool ∧ c ≠ MPE_MASTER_CHANNEL then
        { s with
            channelPool := (s.channelPool ++ [c]).insertionSort (· ≤ ·)
            activeNotes := m
            channelUsageOrder := order }
      else
        { s with activeNotes := m, channelUsageOrder := order }

/-- `getChannelForNote(noteId)`. -/
def getChannelForNote (s : MPEState) (noteId : ℕ) : Option ℕ :=
  amFind s.activeNotes noteId

/-- One call against the `tuning-mpe.js` state. -/
inductive MPEOp where
  | alloc (noteId : ℕ)
  | release (noteId : ℕ)
  | reset
  deriving DecidableEq, Repr

/-- Run one operation (ignoring `allocateChannel`'s return value). -/
def stepMPE (s : MPEState) (op : MPEOp) : MPEState :=
  match op with
  | .alloc noteId => (allocateChannel s noteId).2
  | .release noteId => releaseChannel s noteId
  | .reset => resetMPEState

/-- Run a sequence of operations from the freshly reset state. -/
def runMPEOps (ops : List MPEOp) : MPEState :=
  ops.foldl stepMPE resetMPEState

/-- The channel-state invariant: the free pool plus the channels assigned to
active notes are a permutation of the 15 member channels (hence no duplicates,
no master channel 0, and pool/assignment disjointness), note ids appear at
most once, and the LRU usage order is a permutation of the active note ids. -/
def mpeStateInvariant (s : MPEState) : Prop :=
  List.Perm (s.channelPool ++ amValues s.activeNotes) MPE_MEMBER_CHANNELS ∧
  (amKeys s.activeNotes).Nodup ∧
  List.Perm s.channelUsageOrder (amKeys s.activeNotes)

theorem bne_eq_decide_ne (x y : ℕ) : (x != y) = decide (¬ x = y) := by
  by_cases h : x = y <;> simp [h]

theorem mem_MPE_MEMBER_CHANNELS {x : ℕ} :
    x ∈ MPE_MEMBER_CHANNELS ↔ 1 ≤ x ∧ x ≤ 15 := by
  simp only [MPE_MEMBER_CHANNELS, List.mem_map, List.mem_range]
  constructor
  · rintro ⟨i, hi, rfl⟩; omega
  · rintro ⟨h1, h2⟩; exact ⟨x - 1, by omega, by omega⟩

theorem mpeStateInvariant_reset : mpeStateInvariant resetMPEState := by
  refine ⟨?_, ?_, ?_⟩ <;> simp [resetMPEState, amValues, amKeys]

/-- Facts derived from the channel invariant: value/pool `Nodup`,
pool–assignment disjointness and member-channel bounds. -/
theorem mpeStateInvariant.derived {s : MPEState} (h : mpeStateInvariant s) :
    s.channelPool.Nodup ∧ (amValues s.activeNotes).Nodup ∧
    (∀ c ∈ s.channelPool, c ∉ amValues s.activeNotes) ∧
    (∀ c ∈ s.channelPool, 1 ≤ c ∧ c ≤ 15) ∧
    (∀ c ∈ amValues s.activeNotes, 1 ≤ c ∧ c ≤ 15) := by
  obtain ⟨hpm, -, -⟩ := h
  have hmem : MPE_MEMBER_CHANNELS.Nodup := by decide
  have hnd : (s.channelPool ++ amValues s.activeNotes).Nodup :=
    hpm.nodup_iff.mpr hmem
  rw [List.nodup_append] at hnd
  refine ⟨hnd.1, hnd.2.1, hnd.2.2, ?_, ?_⟩
  · intro c hc
    exact mem_MPE_MEMBER_CHANNELS.mp
      (hpm.mem_iff.mp (List.mem_append_left _ hc))
  · intro c hc
    exact mem_MPE_MEMBER_CHANNELS.mp
      (hpm.mem_iff.mp (List.mem_append_right _ hc))

theorem mpeStateInvariant_alloc {s : MPEState} (h : mpeStateInvariant s)
    (noteId : ℕ) : mpeStateInvariant (allocateChannel s noteId).2 := by
  obtain ⟨hperm, hkeys, horder⟩ := h
  by_cases h0 : noteId = 0
  · simpa [allocateChannel, h0] using ⟨hperm, hkeys, horder⟩
  rcases hfind : amFind s.activeNotes noteId with _ | c
  · -- fresh note id
    rcases hpool : s.channelPool with _ | ⟨c, rest⟩
    · rcases hord : s.channelUsageOrder with _ | ⟨reused, restOrder⟩
      · simpa [allocateChannel, h0, hfind, hpool, hord] using
          ⟨hperm, hkeys, horder⟩
      · rcases hfr : amFind s.activeNotes reused with _ | c
        · simpa [allocateChannel, h0, hfind, hpool, hord, hfr] using
            ⟨hperm, hkeys, horder⟩
        · -- steal the LRU channel
          have hknotmem : noteId ∉ amKeys s.activeNotes :=
            (amFind_eq_none _ _).mp hfind
          have hkdel : noteId ∉ amKeys (amDelete s.activeNotes reused) := by
            rw [amKeys_amDelete]
            exact fun hx => hknotmem (List.mem_of_mem_filter hx)
          have hset : amSet (amDelete s.activeNotes reused) noteId c
              = amDelete s.activeNotes reused ++ [(noteId, c)] :=
            amSet_of_not_mem _ hkdel
          have hcv : c ∈ amValues s.activeNotes := mem_amValues_of_amFind hfr
          have hvdel := amValues_amDelete_perm hkeys hfr
          have hres : (allocateChannel s noteId).2 =
              { s with
                  activeNotes := amDelete s.activeNotes reused ++ [(noteId, c)]
                  channelUsageOrder := restOrder ++ [noteId] } := by
            simp [allocateChannel, h0, hfind, hpool, hord, hfr, hset]
          rw [hres]
          constructor
          · rw [hpool] at hperm ⊢
            simp only [List.nil_append] at hperm ⊢
            calc amValues (amDelete s.activeNotes reused ++ [(noteId, c)])
                = amValues (amDelete s.activeNotes reused) ++ [c] := by
                  rw [amValues_append]; rfl
              _ ~ (amValues s.activeNotes).erase c ++ [c] :=
                  hvdel.append_right _
              _ ~ c :: (amValues s.activeNotes).erase c :=
                  List.perm_append_singleton _ _
              _ ~ amValues s.activeNotes := (List.perm_cons_erase hcv).symm
              _ ~ MPE_MEMBER_CHANNELS := hperm
          constructor
          · rw [amKeys_append]
            have : (amKeys (amDelete s.activeNotes reused)).Nodup := by
              rw [amKeys_amDelete]; exact hkeys.filter _
            refine List.Nodup.append this (List.nodup_singleton _) ?_
            intro x hx hx'
            simp only [amKeys, List.map_cons, List.map_nil,
              List.mem_singleton] at hx'
            exact hkdel (hx' ▸ hx)
          · rw [amKeys_append]
            have h1 : List.Perm restOrder
                ((amKeys s.activeNotes).erase reused) := by
              have := (horder.symm.erase reused)
              rw [hord, List.erase_cons_head] at this
              exact this.symm
            have h2 : (amKeys s.activeNotes).erase reused
                = amKeys (amDelete s.activeNotes reused) := by
              rw [amKeys_amDelete, hkeys.erase_eq_filter]
              exact List.filter_congr fun x _ => bne_eq_decide_ne x reused
            exact (h1.append_right _).trans
              (by rw [h2]; exact List.Perm.refl _)
    · -- take a channel from the free pool
      have hknotmem : noteId ∉ amKeys s.activeNotes :=
        (amFind_eq_none _ _).mp hfind
      have hset : amSet s.activeNotes noteId c
          = s.activeNotes ++ [(noteId, c)] := amSet_of_not_mem _ hknotmem
      have hres : (allocateChannel s noteId).2 =
          { s with
              channelPool := rest
              activeNotes := s.activeNotes ++ [(noteId, c)]
              channelUsageOrder := s.channelUsageOrder ++ [noteId] } := by
        simp [allocateChannel, h0, hfind, hpool, hset]
      rw [hres]
      constructor
      · rw [hpool] at hperm
        calc rest ++ amValues (s.activeNotes ++ [(noteId, c)])
            = rest ++ (amValues s.activeNotes ++ [c]) := by
              rw [amValues_append]; rfl
          _ ~ rest ++ ([c] ++ amValues s.activeNotes) :=
              List.Perm.append_left _ List.perm_append_comm
          _ = (rest ++ [c]) ++ amValues s.activeNotes := by
              rw [List.append_assoc]
          _ ~ (c :: rest) ++ amValues s.activeNotes :=
              (List.perm_append_singleton _ _).append_right _
          _ ~ MPE_MEMBER_CHANNELS := hperm
      constructor
      · rw [amKeys_append]
        refine List.Nodup.append hkeys (List.nodup_singleton _) ?_
        intro x hx hx'
        simp only [amKeys, List.map_cons, List.map_nil,
          List.mem_singleton] at hx'
        exact hknotmem (hx' ▸ hx)
      · rw [amKeys_append]
        exact horder.append_right _
  · -- note already active: only the usage order is refreshed
    have hkmem : noteId ∈ amKeys s.activeNotes := mem_keys_of_amFind hfind
    have homem : noteId ∈ s.channelUsageOrder := horder.mem_iff.mpr hkmem
    have hres : (allocateChannel s noteId).2 =
        { s with channelUsageOrder :=
            (s.channelUsageOrder.erase noteId) ++ [noteId] } := by
      simp [allocateChannel, h0, hfind]
    rw [hres]
    refine ⟨hperm, hkeys, ?_⟩
    calc s.channelUsageOrder.erase noteId ++ [noteId]
        ~ noteId :: s.channelUsageOrder.erase noteId :=
          List.perm_append_singleton _ _
      _ ~ s.channelUsageOrder := (List.perm_cons_erase homem).symm
      _ ~ amKeys s.activeNotes := horder

theorem mpeStateInvariant_release {s : MPEState} (h : mpeStateInvariant s)
    (noteId : ℕ) : mpeStateInvariant (releaseChannel s noteId) := by
  obtain ⟨hperm, hkeys, horder⟩ := h
  obtain ⟨-, -, hdisj, -, hbv⟩ := mpeStateInvariant.derived ⟨hperm, hkeys, horder⟩
  by_cases h0 : noteId = 0
  · simpa [releaseChannel, h0] using ⟨hperm, hkeys, horder⟩
  rcases hfind : amFind s.activeNotes noteId with _ | c
  · simpa [releaseChannel, h0, hfind] using ⟨hperm, hkeys, horder⟩
  have hcv : c ∈ amValues s.activeNotes := mem_amValues_of_amFind hfind
  have hguard : c ∉ s.channelPool ∧ c ≠ MPE_MASTER_CHANNEL := by
    refine ⟨fun hc => hdisj c hc hcv, ?_⟩
    have := (hbv c hcv).1
    simp only [MPE_MASTER_CHANNEL]
    omega
  have hvdel := amValues_amDelete_perm hkeys hfind
  have hkdelnd : (amKeys (amDelete s.activeNotes noteId)).Nodup := by
    rw [amKeys_amDelete]; exact hkeys.filter _
  have hordel : List.Perm (s.channelUsageOrder.erase noteId)
      (amKeys (amDelete s.activeNotes noteId)) := by
    have h2 : (amKeys s.activeNotes).erase noteId
        = amKeys (amDelete s.activeNotes noteId) := by
      rw [amKeys_amDelete, hkeys.erase_eq_filter]
      exact List.filter_congr fun x _ => bne_eq_decide_ne x noteId
    exact h2 ▸ horder.erase noteId
  have hres : releaseChannel s noteId =
      { s with
          channelPool := (s.channelPool ++ [c]).insertionSort (· ≤ ·)
          activeNotes := amDelete s.activeNotes noteId
          channelUsageOrder := s.channelUsageOrder.erase noteId } := by
    simp [releaseChannel, h0, hfind, hguard]
  rw [hres]
  refine ⟨?_, ?_, ?_⟩
  · calc (s.channelPool ++ [c]).insertionSort (· ≤ ·)
          ++ amValues (amDelete s.activeNotes noteId)
        ~ (s.channelPool ++ [c]) ++ amValues (amDelete s.activeNotes noteId) :=
          (List.perm_insertionSort _ _).append_right _
      _ ~ (s.channelPool ++ [c]) ++ (amValues s.activeNotes).erase c :=
          List.Perm.append_left _ hvdel
      _ = s.channelPool ++ ([c] ++ (amValues s.activeNotes).erase c) := by
          rw [List.append_assoc]
      _ ~ s.channelPool ++ amValues s.activeNotes :=
          List.Perm.append_left _ (List.perm_cons_erase hcv).symm
      _ ~ MPE_MEMBER_CHANNELS := hperm
  · exact hkdelnd
  · exact hordel

theorem mpeStateInvariant_step {s : MPEState} (h : mpeStateInvariant s)
    (op : MPEOp) : mpeStateInvariant (stepMPE s op) := by
  cases op with
  | alloc noteId => exact mpeStateInvariant_alloc h noteId
  | release noteId => exact mpeStateInvariant_release h noteId
  | reset => exact mpeStateInvariant_reset

/-- Every state reachable from `resetMPEState` satisfies the invariant. -/
theorem mpeStateInvariant_runMPEOps (ops : List MPEOp) :
    mpeStateInvariant (runMPEOps ops) := by
  rw [runMPEOps]
  induction ops using List.reverseRecOn with
  | nil => exact mpeStateInvariant_reset
  | append_singleton ops op ih =>
    rw [List.foldl_append, List.foldl_cons, List.foldl_nil]
    exact mpeStateInvariant_step ih op

/-! ## MIDI send helpers of `js/tuning-mpe.js`

Each send function returns the byte count reported by the source together with
the list of MIDI messages written to the output.  `midiOutput` is a flag for
whether an output device is connected. -/

/-- `sendPitchBend(midiOutput, channel, bendValue)`: clamp to `[-8192, 8191]`,
re-centre to 14 bits and send `[0xE0 | channel, lsb, msb]`. -/
def sendPitchBend (midiOutput : Bool) (channel : Option ℕ) (bendValue : ℤ) :
    ℕ × List (List ℕ) :=
  match midiOutput, channel with
  | false, _ => (0, [])
  | true, none => (0, [])
  | true, some ch =>
    let clamped := max (-8192) (min 8191 bendValue)
    let bend := (clamped + 8192).toNat
    let lsb := bend % 128
    let msb := (bend / 128) % 128
    (3, [[0xE0 ||| ch, lsb, msb]])

/-- `sendNoteOn(midiOutput, channel, note, velocity)`. -/
def sendNoteOn (midiOutput : Bool) (channel note velocity : ℕ) :
    ℕ × List (List ℕ) :=
  if midiOutput then (3, [[0x90 ||| channel, note, velocity]]) else (0, [])

/-- `sendNoteOff(midiOutput, channel, note)`. -/
def sendNoteOff (midiOutput : Bool) (channel note : ℕ) : ℕ × List (List ℕ) :=
  if midiOutput then (3, [[0x80 ||| channel, note, 0]]) else (0, [])

/-- The six RPN-0 messages per member channel sent by
`initializePitchBendRange`. -/
def initPitchBendRangeMessages : List (List ℕ) :=
  MPE_MEMBER_CHANNELS.flatMap fun ch =>
    [[0xB0 ||| ch, 101, 0], [0xB0 ||| ch, 100, 0], [0xB0 ||| ch, 6, 2],
     [0xB0 ||| ch, 38, 0], [0xB0 ||| ch, 101, 127], [0xB0 ||| ch, 100, 127]]

/-! ## `js/tuning-mts.js` — MTS message construction and mode detection -/

/-- `centsToMTSFrequencyData(baseMidiNote, centsOffset)`:
`[semitone, fraction_MSB, fraction_LSB]`. -/
def centsToMTSFrequencyData (baseMidiNote : ℕ) (centsOffset : ℚ) : List ℕ :=
  let totalCents : ℚ := (baseMidiNote : ℚ) * 100 + centsOffset
  let semitone : ℤ := jsFloor (totalCents / 100)
  if semitone < 0 then [0x00, 0x00, 0x00]
  else if semitone > 127 then [0x7F, 0x7F, 0x7E]
  else
    let fractionCents := totalCents - (semitone : ℚ) * 100
    let fractionCents := max 0 (min (999939 / 10000) fractionCents)
    let fraction14bit := jsRound (fractionCents / 100 * 16383)
    let fractionClamped := (max 0 (min 16383 fraction14bit)).toNat
    [semitone.toNat % 128, (fractionClamped / 128) % 128, fractionClamped % 128]

/-- `buildSingleNoteTuning(noteNumber, centsOffset)`: the realtime single-note
tuning-change SysEx. -/
def buildSingleNoteTuning (noteNumber : ℕ) (centsOffset : ℚ) : List ℕ :=
  [0xF0, 0x7F, 0x7F, 0x08, 0x02, 0x00, 0x01, noteNumber % 128]
    ++ centsToMTSFrequencyData noteNumber centsOffset ++ [0xF7]

/-- `applySingleNoteTuning(midiOutput, note, cents)`: result
`{ success, bytesSent }` plus the message sent (sends are modelled as always
succeeding; a thrown send is external nondeterminism outside this model). -/
def applySingleNoteTuning (midiOutput mtsSupported : Bool) (note : ℕ)
    (cents : ℚ) : Bool × ℕ × List (List ℕ) :=
  if ¬midiOutput ∨ ¬mtsSupported then (false, 0, [])
  else
    let msg := buildSingleNoteTuning note cents
    (true, msg.length, [msg])

/-- The mode/detection state of `tuning-mts.js`. -/
structure MTSState where
  mtsSupported : Bool
  mtsDetectionAttempted : Bool
  mtsFallbackRequested : Bool
  currentTuningMode : String
  deriving DecidableEq, Repr

/-- The initial module state of `tuning-mts.js`. -/
def initialMTSState : MTSState :=
  { mtsSupported := false
    mtsDetectionAttempted := false
    mtsFallbackRequested := false
    currentTuningMode := "detecting" }

/-- `detectMTSSupport(midiOutput, sysexEnabled, ...)`.  `savedPreference` is
`localStorage.getItem('tuningModePreference')`; `sendThrows` tells whether the
synchronous equal-temperament probe send throws. -/
def detectMTSSupport (s : MTSState) (hasOutput sysexEnabled : Bool)
    (savedPreference : Option String) (sendThrows : Bool) : MTSState :=
  if ¬hasOutput ∨ s.mtsDetectionAttempted then s
  else
    let s := { s with mtsDetectionAttempted := true }
    if ¬sysexEnabled then
      { s with mtsSupported := false, mtsFallbackRequested := true,
               currentTuningMode := "MPE" }
    else if savedPreference = some "MPE" then
      { s with mtsFallbackRequested := true, mtsSupported := false,
               currentTuningMode := "MPE" }
    else
      let s := { s with mtsSupported := true, currentTuningMode := "MTS" }
      if sendThrows then
        { s with mtsSupported := false, currentTuningMode := "MPE" }
      else s

/-! ## `script5.js` — capability probing snapshot -/

/-- The relevant module state of the `script5.js` snapshot. -/
structure Script5State where
  lastDeviceId : ℕ
  sysExSupported : Bool
  forcePbOnly : Bool
  statusMtsConfirmed : Bool
  deriving DecidableEq, Repr

/-- `script5.js` initial values: `lastDeviceId = 0x7F`,
`sysExSupported = true`, `forcePbOnly = false`. -/
def initialScript5State : Script5State :=
  { lastDeviceId := 0x7F
    sysExSupported := true
    forcePbOnly := false
    statusMtsConfirmed := false }

/-- `afterOutputSelected()`: `probeIdentity` resolves to the responding
device's id or to `null` after its 500 ms timeout, `probeMtsDump` to whether a
dump reply arrived within 600 ms.  A response records the device id; the dump
outcome only changes the status text (`'MTS Confirmed'` vs
`'MTS support is unknown'`). -/
def afterOutputSelected (s : Script5State) (identityResponse : Option ℕ)
    (dumpResponseArrived : Bool) : Script5State :=
  let s1 := match identityResponse with
    | some d => { s with lastDeviceId := d }
    | none => s
  { s1 with statusMtsConfirmed := dumpResponseArrived }

/-- The note-on tuning dispatch of `script5.js` (`onMIDIMessage`): an MTS
SysEx is attempted iff `!forcePbOnly && sysExSupported`. -/
def script5UsesSysEx (s : Script5State) : Bool :=
  !s.forcePbOnly && s.sysExSupported

/-- The device-id byte embedded by `createMtsSysex`:
`lastDeviceId & 0x7F`. -/
def createMtsSysexDeviceId (s : Script5State) : ℕ := s.lastDeviceId % 128

/-! ## `js/main.js` — predictive-tuning resolution (`applyTuning`) -/

/-- One entry of a per-pitch predictive queue: either an object
`{ note_id?, timestamp?, cents?, ratio? }` or a bare number (a frequency
ratio). -/
inductive PredEntry where
  | obj (note_id : Option ℕ) (timestamp : Option ℚ) (cents : Option ℚ)
      (ratio : Option ℚ)
  | num (value : ℚ)
  deriving DecidableEq, Repr

/-- `entry?.note_id` as an optional value (`none` for `undefined`). -/
def PredEntry.noteIdField : PredEntry → Option ℕ
  | .obj nid _ _ _ => nid
  | .num _ => none

/-- `entry?.timestamp` as an optional value (`none` for `undefined`). -/
def PredEntry.timestampField : PredEntry → Option ℚ
  | .obj _ ts _ _ => ts
  | .num _ => none

/-- The predictive-tuning module state of `main.js`:
`predictiveJITable`, `predictiveTuningActive`, `predictiveSeenIds`. -/
structure PredState where
  table : List (ℕ × List PredEntry)
  active : Bool
  seenIds : List ℕ
  deriving DecidableEq, Repr

/-- The `{ note, velocity, pitchBend }` record returned by `applyTuning`. -/
structure TunedNote where
  note : ℕ
  velocity : ℕ
  pitchBend : ℤ
  deriving DecidableEq, Repr

/-- The bookkeeping shared by `applyPredictiveTuning` and the stale-discard
branch of `applyTuning`: drop the entry's id from `predictiveSeenIds`
(`if (entry?.note_id)` — a zero id is falsy), delete the pitch's queue if it
is now empty, and recompute `predictiveTuningActive`.  `ps.table` must already
hold the shifted queue `queueAfter` at `note` (the JS `shift()` mutates the
array stored in the table). -/
def predConsumeCleanup (entry : PredEntry) (note : ℕ)
    (queueAfter : List PredEntry) (ps : PredState) : PredState :=
  let ps1 := match entry.noteIdField with
    | some nid => if nid ≠ 0 then { ps with seenIds := ps.seenIds.erase nid }
                  else ps
    | none => ps
  let table1 := if queueAfter.isEmpty then amDelete ps1.table note
                else ps1.table
  { ps1 with
      table := table1
      active := table1.any (fun p => !p.2.isEmpty) }

/-- `applyPredictiveTuning(entry, note, velocity, queue)`. -/
noncomputable def applyPredictiveTuning (entry : PredEntry)
    (note velocity : ℕ) (queueAfter : List PredEntry) (ps : PredState) :
    TunedNote × PredState :=
  let ps2 := predConsumeCleanup entry note queueAfter ps
  match entry with
  | .obj _ _ (some c) _ =>
    ({ note := note, velocity := velocity,
       pitchBend := centsToPitchBend (c : ℝ) }, ps2)
  | .obj _ _ none (some r) =>
    ({ note := note, velocity := velocity,
       pitchBend := centsToPitchBend (1200 * Real.logb 2 (r : ℝ)) }, ps2)
  | .obj _ _ none none =>
    ({ note := note, velocity := velocity, pitchBend := 0 }, ps2)
  | .num x =>
    ({ note := note, velocity := velocity,
       pitchBend := centsToPitchBend (1200 * Real.logb 2 (x : ℝ)) }, ps2)

/-- The reactive fallback of `applyTuning`: the current key is the MusicXML
key while score following is active (and a key has been stored), otherwise
the ensemble detector's stable key; no key means equal temperament
(`pitchBend: 0`). -/
noncomputable def reactiveTunedNote (scoreFollowingActive : Bool)
    (musicXMLKey detectorKey : Option String) (note velocity : ℕ) :
    TunedNote :=
  let currentKey := match scoreFollowingActive, musicXMLKey with
    | true, some k => some k
    | _, _ => detectorKey
  match currentKey with
  | none => { note := note, velocity := velocity, pitchBend := 0 }
  | some key =>
    { note := note, velocity := velocity,
      pitchBend := calculateJIPitchBend note key }

/-- `PREDICTION_STALENESS_THRESHOLD` (milliseconds). -/
def PREDICTION_STALENESS_THRESHOLD : ℚ := 60000

/-- `applyTuning(note, velocity, channel)`.  `now` is `Date.now()` in
milliseconds; entry timestamps are in seconds.  The third component reports
whether the stale-prediction warning was logged.  A consumed entry whose age
`now − timestamp·1000` exceeds the 60 s threshold is discarded (the queue was
already shifted) and the reactive path is used instead; a fresh entry — or one
with no truthy timestamp — is applied predictively. -/
noncomputable def applyTuning (ps : PredState) (scoreFollowingActive : Bool)
    (musicXMLKey detectorKey : Option String) (note velocity : ℕ)
    (now : ℚ) : TunedNote × PredState × Bool :=
  match amFind ps.table note with
  | some (entry :: rest) =>
    if ps.active then
      let psShift := { ps with table := amSet ps.table note rest }
      let applyIt :=
        (applyPredictiveTuning entry note velocity rest psShift, false)
      match entry.timestampField with
      | some t =>
        if t ≠ 0 then
          let age := now - t * 1000
          if age > PREDICTION_STALENESS_THRESHOLD then
            let ps2 := predConsumeCleanup entry note rest psShift
            (reactiveTunedNote scoreFollowingActive musicXMLKey detectorKey
               note velocity, ps2, true)
          else
            (applyIt.1.1, applyIt.1.2, false)
        else (applyIt.1.1, applyIt.1.2, false)
      | none => (applyIt.1.1, applyIt.1.2, false)
    else
      (reactiveTunedNote scoreFollowingActive musicXMLKey detectorKey note
         velocity, ps, false)
  | _ =>
    (reactiveTunedNote scoreFollowingActive musicXMLKey detectorKey note
       velocity, ps, false)

/-! ## `js/main.js` — external forwarding (`forwardNoteExternal`) -/

/-- The outcome of `forwardNoteExternal`: the MIDI messages sent in order, the
resulting MPE state, whether the note was dropped
(`all MPE channels exhausted` warning) and the `totalBytesSent` counter. -/
structure FwdResult where
  messages : List (List ℕ)
  mpe : MPEState
  dropped : Bool
  bytesSent : ℕ
  deriving DecidableEq, Repr

/-- `forwardNoteExternal(noteData, channel, isNoteOn)` with a connected
output.  `usingMTS` is `mts.isMTSSupported()` (also consulted by
`applySingleNoteTuning`).  In MPE mode a note-on first ensures the pitch-bend
range is initialized, then allocates a channel: a steal result first recentres
the stolen channel's bend; a `null`/`undefined` result drops the note with a
warning and sends nothing further. -/
def forwardNoteExternal (usingMTS : Bool) (s : MPEState) (noteId : ℕ)
    (note velocity : ℕ) (pitchBend : ℤ) (inChannel : ℕ) (isNoteOn : Bool) :
    FwdResult :=
  let pbv := pitchBend
  -- MPE-mode channel handling; the last component marks the early-return
  -- drop (`all MPE channels exhausted`), after which nothing more is sent
  let mpePhase : List (List ℕ) × MPEState × ℕ × ℕ × Bool :=
    if usingMTS then ([], s, 0, inChannel, false)
    else
      let init := if ¬s.pitchBendRangeInitialized ∧ isNoteOn then
          (initPitchBendRangeMessages,
            { s with pitchBendRangeInitialized := true })
        else ([], s)
      let initMsgs := init.1
      let s0 := init.2
      if isNoteOn then
        match allocateChannel s0 noteId with
        | (.stolen c _, s1) =>
          let sent := sendPitchBend true (some c) 0
          (initMsgs ++ sent.2, s1, sent.1, c, false)
        | (.chan c, s1) => (initMsgs, s1, 0, c, false)
        | (.invalid, s1) => (initMsgs, s1, 0, inChannel, false)
        | (.null, s1) => (initMsgs, s1, 0, inChannel, true)
      else
        let outCh := if noteId ≠ 0 then
            match getChannelForNote s0 noteId with
            | some ch => ch
            | none => inChannel
          else inChannel
        (initMsgs, s0, 0, outCh, false)
  match mpePhase with
  | (msgs0, s1, _, _, true) =>
    { messages := msgs0, mpe := s1, dropped := true, bytesSent := 0 }
  | (msgs0, s1, bytes0, outCh, false) =>
    -- MTS single-note tuning attempt
    let mts := if isNoteOn ∧ pbv ≠ 0 ∧ usingMTS then
        applySingleNoteTuning true usingMTS note (pitchBendToCents pbv)
      else (false, 0, [])
    let msgs1 := msgs0 ++ mts.2.2
    let bytes1 := bytes0 + (if mts.1 then mts.2.1 else 0)
    -- pitch-bend transmission
    let pb := if ¬usingMTS then sendPitchBend true (some outCh) pbv
      else if isNoteOn ∧ ¬mts.1 ∧ pbv ≠ 0 then
        sendPitchBend true (some outCh) pbv
      else (0, [])
    let msgs2 := msgs1 ++ pb.2
    let bytes2 := bytes1 + pb.1
    -- the note message itself
    let status := if isNoteOn then 0x90 ||| outCh else 0x80 ||| outCh
    let msgs3 := msgs2 ++ [[status, note, velocity]]
    let bytes3 := bytes2 + 3
    -- note-off: recentre the bend and free the channel
    if ¬isNoteOn ∧ ¬usingMTS then
      let reset := sendPitchBend true (some outCh) 0
      { messages := msgs3 ++ reset.2
        mpe := releaseChannel s1 noteId
        dropped := false
        bytesSent := bytes3 }
    else
      { messages := msgs3, mpe := s1, dropped := false, bytesSent := bytes3 }

/-! ## `js/key-detection.js` — ensemble key detection

JS identifies keys by name strings `NOTE_NAMES[root] + ('m' | '')`; since the
twelve note names are pairwise distinct, a key is equivalently the pair
(root pitch class, mode) used here. -/

/-- Major or minor. -/
inductive KMode where
  | major
  | minor
  deriving DecidableEq, Repr, Fintype

/-- A candidate key `(root, mode)`. -/
structure DKey where
  root : Fin 12
  mode : KMode
  deriving DecidableEq, Repr, Fintype

/-- `ALBRECHT_SHANAHAN_PROFILES`. -/
def albrechtShanahanProfile : KMode → List ℚ
  | .major => [238/1000, 6/1000, 111/1000, 6/1000, 137/1000, 94/1000,
      16/1000, 214/1000, 9/1000, 80/1000, 8/1000, 81/1000]
  | .minor => [220/1000, 6/1000, 104/1000, 123/1000, 19/1000, 103/1000,
      12/1000, 214/1000, 62/1000, 22/1000, 61/1000, 52/1000]

/-- `TEMPERLEY_PROFILES`. -/
def temperleyProfile : KMode → List ℚ
  | .major => [176/1000, 14/1000, 115/1000, 19/1000, 158/1000, 108/1000,
      23/1000, 168/1000, 24/1000, 86/1000, 13/1000, 94/1000]
  | .minor => [170/1000, 20/1000, 113/1000, 148/1000, 12/1000, 110/1000,
      25/1000, 179/1000, 97/1000, 16/1000, 32/1000, 79/1000]

/-- `KRUMHANSL_KESSLER_PROFILES`. -/
def krumhanslKesslerProfile : KMode → List ℚ
  | .major => [152/1000, 53/1000, 83/1000, 56/1000, 105/1000, 98/1000,
      60/1000, 124/1000, 57/1000, 88/1000, 55/1000, 69/1000]
  | .minor => [142/1000, 60/1000, 79/1000, 121/1000, 58/1000, 79/1000,
      57/1000, 107/1000, 89/1000, 60/1000, 75/1000, 71/1000]

/-- `ENSEMBLE_CONFIG.profiles` in object-iteration (declaration) order with
their blend weights: Albrecht–Shanahan 0.45, Temperley 0.35,
Krumhansl–Kessler 0.20. -/
def ensembleProfiles : List ((KMode → List ℚ) × ℚ) :=
  [(albrechtShanahanProfile, 45/100),
   (temperleyProfile, 35/100),
   (krumhanslKesslerProfile, 20/100)]

/-- The 12-bin pitch-class histogram of a note buffer. -/
def noteHistogram (buffer : List ℕ) (pc : Fin 12) : ℕ :=
  (buffer.filter (fun n => n % 12 = (pc : ℕ))).length

/-- `noteCounts.reduce((a, b) => a + b, 0)`. -/
def totalCount (buffer : List ℕ) : ℕ :=
  ((List.finRange 12).map (noteHistogram buffer)).sum

/-- The normalized histogram `noteCounts.map(c => c / total)`. -/
def normalizedHistogram (buffer : List ℕ) (pc : Fin 12) : ℚ :=
  (noteHistogram buffer pc : ℚ) / (totalCount buffer : ℚ)

/-- `rotated[i] = profileData[(i − root) mod 12]`, the JS
`[...profileData.slice(12 - root), ...profileData.slice(0, 12 - root)]`.
The default 0 is never consulted: the profile lists have 12 entries and the
rotated index is below 12. -/
def rotatedProfile (p : KMode → List ℚ) (k : DKey) (i : Fin 12) : ℚ :=
  (p k.mode).getD ((i - k.root : Fin 12) : ℕ) 0

/-- The scalar product of a normalized histogram with a rotated profile. -/
def keyScore (h : Fin 12 → ℚ) (p : KMode → List ℚ) (k : DKey) : ℚ :=
  ((List.finRange 12).map (fun i => h i * rotatedProfile p k i)).sum

/-- The 24 candidate keys in JS iteration order (roots 0–11, major before
minor). -/
def candidateKeys : List DKey :=
  (List.finRange 12).flatMap fun r => [⟨r, .major⟩, ⟨r, .minor⟩]

/-- The per-profile argmax (`bestKey` / `bestScore`): a strict-improvement
fold.  JS starts from `bestScore = -Infinity`, so the first candidate always
replaces the initial accumulator; folding over the whole candidate list
starting from the first candidate's result is the same computation (the
self-comparison `score > score` is false). -/
def pickBestKey (score : DKey → ℚ) : DKey × ℚ :=
  candidateKeys.foldl
    (fun acc k => if score k > acc.2 then (k, score k) else acc)
    (⟨0, .major⟩, score ⟨0, .major⟩)

/-- One entry of the JS `keyVotes` object. -/
structure KeyVote where
  key : DKey
  weightedScore : ℚ
  voteCount : ℕ
  deriving DecidableEq, Repr

/-- Record one profile's vote, preserving JS object-insertion order. -/
def insertVote (votes : List KeyVote) (k : DKey) (ws : ℚ) : List KeyVote :=
  if votes.any (fun v => v.key = k) then
    votes.map fun v =>
      if v.key = k then
        { v with weightedScore := v.weightedScore + ws,
                 voteCount := v.voteCount + 1 }
      else v
  else votes ++ [{ key := k, weightedScore := ws, voteCount := 1 }]

/-- Each profile's best key and score, with the profile's weight. -/
def profileBests (buffer : List ℕ) : List (DKey × ℚ × ℚ) :=
  ensembleProfiles.map fun pc =>
    let best := pickBestKey (keyScore (normalizedHistogram buffer) pc.1)
    (best.1, best.2, pc.2)

/-- The `keyVotes` table after all three profiles have voted. -/
def keyVotes (buffer : List ℕ) : List KeyVote :=
  (profileBests buffer).foldl
    (fun votes b => insertVote votes b.1 (b.2.2 * b.2.1)) []

/-- The final strict-max scan over `keyVotes` (JS `finalKey`/`finalScore`/
`agreement` with initial `null`/`-Infinity`/`0`): `none` exactly when the vote
table is empty. -/
def finalPick (votes : List KeyVote) : Option KeyVote :=
  votes.foldl
    (fun acc v => match acc with
      | none => some v
      | some a => if v.weightedScore > a.weightedScore then some v else some a)
    none

/-- `agreement === 3 ? 1.2 : agreement === 2 ? 1.0 : 0.8`. -/
def agreementBonus (agreement : ℕ) : ℚ :=
  if agreement = 3 then 12/10 else if agreement = 2 then 1 else 8/10

/-- The sensitivity-selected threshold:
`sensitivity === 'high' ? 0.03 : sensitivity === 'medium' ? 0.04 : 0.05`. -/
def sensitivityThreshold (sensitivity : String) : ℚ :=
  if sensitivity = "high" then 3/100
  else if sensitivity = "medium" then 4/100
  else 5/100

/-- The estimate returned by `detectKeyEnsemble`. -/
structure KeyEstimate where
  key : DKey
  confidence : ℤ
  agreement : ℕ
  deriving DecidableEq, Repr

/-- `KeyDetector.detectKeyEnsemble(noteBuffer, sensitivity)`.  The state is
`this.currentKey`; the result is the returned estimate (or `null`) together
with the updated `currentKey`.  An estimate is returned only when the final
weighted score clears the threshold **and** the winning key differs from the
stored key (hysteresis); only then is `currentKey` overwritten. -/
def detectKeyEnsemble (currentKey : Option DKey) (buffer : List ℕ)
    (sensitivity : String) : Option KeyEstimate × Option DKey :=
  let threshold := sensitivityThreshold sensitivity
  if totalCount buffer = 0 then (none, currentKey)
  else
    match finalPick (keyVotes buffer) with
    | none => (none, currentKey)
    | some fv =>
      let agreement := fv.voteCount
      let conf := jsRound (fv.weightedScore * 400 * agreementBonus agreement)
      if fv.weightedScore ≥ threshold ∧ some fv.key ≠ currentKey then
        (some { key := fv.key, confidence := conf, agreement := agreement },
          some fv.key)
      else (none, currentKey)

/-! ## Claim theorems -/

theorem jsRoundR_zero : jsRoundR 0 = 0 := by
  rw [jsRoundR]
  norm_num

/-- **C1.** For every key `(root, mode)` the tuning table is a deterministic
pure function of `(root mod 12, mode)` — two roots in the same pitch class
produce identical tables — and the deviation at the tonic pitch class
(`root mod 12`) is exactly 0 cents.  (Determinism over equal arguments is
immediate: `calculateScaleOctaveTuning` is a pure function of its inputs.) -/
theorem tonic_deviation_zero_and_deterministic (root root' : ℕ)
    (isMinor : Bool) (h : root % 12 = root' % 12) :
    calculateScaleOctaveTuning root isMinor ⟨root % 12, by omega⟩ = 0 ∧
    calculateScaleOctaveTuning root isMinor
      = calculateScaleOctaveTuning root' isMinor := by
  constructor
  · have hint : ((root % 12) + 12 - root % 12) % 12 = 0 := by omega
    simp only [calculateScaleOctaveTuning, hint]
    have hr : jiRatio isMinor 0 = 1 := rfl
    rw [hr]
    push_cast
    rw [Real.logb_one]
    norm_num
    exact jsRoundR_zero
  · funext pc
    simp only [calculateScaleOctaveTuning, h]

/-- Witness for C1 at concrete inputs (roots 60 and 72, major). -/
theorem tonic_deviation_zero_witness :
    (60 : ℕ) % 12 = (72 : ℕ) % 12 ∧
    calculateScaleOctaveTuning 60 false ⟨60 % 12, by omega⟩ = 0 ∧
    calculateScaleOctaveTuning 60 false = calculateScaleOctaveTuning 72 false :=
  ⟨by decide, tonic_deviation_zero_and_deterministic 60 72 false (by decide)⟩

theorem log_ratio_16_15_gt : (0.064538 : ℝ) < Real.log (16 / 15) := by
  have h16 : (0 : ℝ) < 16 / 15 := by norm_num
  rw [Real.lt_log_iff_exp_lt h16]
  have hb := Real.exp_bound (x := 0.064538) (by rw [abs_of_nonneg] <;> norm_num)
    (n := 4) (by norm_num)
  have hsum : (∑ i ∈ Finset.range 4, (0.064538 : ℝ) ^ i / i.factorial)
      = 1 + 0.064538 + 0.064538 ^ 2 / 2 + 0.064538 ^ 3 / 6 := by
    simp [Finset.sum_range_succ, Nat.factorial]
  rw [hsum] at hb
  have h1 : Real.exp 0.064538
      - (1 + 0.064538 + 0.064538 ^ 2 / 2 + 0.064538 ^ 3 / 6)
      ≤ |(0.064538 : ℝ)| ^ 4
        * (((4 : ℕ).succ : ℝ) / (((4 : ℕ).factorial : ℝ) * 4)) :=
    le_trans (le_abs_self _) hb
  have h2 : |(0.064538 : ℝ)| ^ 4
      * (((4 : ℕ).succ : ℝ) / (((4 : ℕ).factorial : ℝ) * 4))
      ≤ 0.064538 ^ 4 * (5 / 96) := by
    rw [abs_of_nonneg (by norm_num)]
    norm_num [Nat.factorial]
  have h3 : (1 : ℝ) + 0.064538 + 0.064538 ^ 2 / 2 + 0.064538 ^ 3 / 6
      + 0.064538 ^ 4 * (5 / 96) < 16 / 15 := by norm_num
  linarith

theorem log_ratio_16_15_lt : Real.log (16 / 15 : ℝ) < 0.06454 := by
  have h16 : (0 : ℝ) < 16 / 15 := by norm_num
  rw [Real.log_lt_iff_lt_exp h16]
  have hs := Real.sum_le_exp_of_nonneg (x := (0.06454 : ℝ)) (by norm_num) 5
  have hsum : (∑ i ∈ Finset.range 5, (0.06454 : ℝ) ^ i / i.factorial)
      = 1 + 0.06454 + 0.06454 ^ 2 / 2 + 0.06454 ^ 3 / 6
        + 0.06454 ^ 4 / 24 := by
    simp [Finset.sum_range_succ, Nat.factorial]
  rw [hsum] at hs
  have h3 : (16 : ℝ) / 15
      < 1 + 0.06454 + 0.06454 ^ 2 / 2 + 0.06454 ^ 3 / 6
        + 0.06454 ^ 4 / 24 := by
    norm_num
  linarith

/-- The just-intonation deviation of the minor second (ratio 16/15) against
100 cents equal temperament lies strictly between 11.725 and 11.735 cents. -/
theorem minor_second_deviation_bounds :
    (11.725 : ℝ) < 1200 * Real.logb 2 (16 / 15) - 100 ∧
    1200 * Real.logb 2 (16 / 15) - 100 < 11.735 := by
  have hl2pos : (0 : ℝ) < Real.log 2 := Real.log_pos (by norm_num)
  have hl2lo := Real.log_two_gt_d9
  have hl2hi := Real.log_two_lt_d9
  have hLlo := log_ratio_16_15_gt
  have hLhi := log_ratio_16_15_lt
  have hlogb : Real.logb 2 (16 / 15 : ℝ)
      = Real.log (16 / 15) / Real.log 2 := Real.log_div_log.symm
  rw [hlogb]
  have hform : (1200 : ℝ) * (Real.log (16 / 15) / Real.log 2)
      = 1200 * Real.log (16 / 15) / Real.log 2 := by ring
  rw [hform]
  constructor
  · have h : (111.725 : ℝ) < 1200 * Real.log (16 / 15) / Real.log 2 := by
      rw [lt_div_iff₀ hl2pos]
      nlinarith
    linarith
  · have h : 1200 * Real.log (16 / 15) / Real.log 2 < (111.735 : ℝ) := by
      rw [div_lt_iff₀ hl2pos]
      nlinarith
    linarith

/-- **C8.** Under detected key C major (`keyRoot = 60`), pitch class 1 (e.g.
MIDI note 61 = C♯4, scale degree 1, ratio 16/15) gets a tuning-table
deviation of exactly +11.73 cents (the table rounds to two decimals), and the
unrounded per-note deviation computed by `calculateJICentsForNote` for note 61
in key `"C"` is within half a rounding step (0.005 cents) of +11.73. -/
theorem note61_c_major_deviation :
    calculateScaleOctaveTuning 60 false ⟨1, by omega⟩ = 1173 / 100 ∧
    |calculateJICentsForNote 61 "C" - 1173 / 100| < 1 / 200 := by
  obtain ⟨hdl, hdh⟩ := minor_second_deviation_bounds
  have hcast : ((16 / 15 : ℚ) : ℝ) = (16 : ℝ) / 15 := by norm_num
  have hfloor : jsRoundR ((1200 * Real.logb 2 ((16 : ℝ) / 15) - 100) * 100)
      = 1173 := by
    rw [jsRoundR, Int.floor_eq_iff]
    constructor
    · push_cast
      nlinarith
    · push_cast
      nlinarith
  constructor
  · have hstep : calculateScaleOctaveTuning 60 false ⟨1, by omega⟩
        = (jsRoundR ((1200 * Real.logb 2 ((16 : ℝ) / 15) - 100) * 100) : ℝ)
          / 100 := by
      simp only [calculateScaleOctaveTuning]
      norm_num [jiRatio, jiRatioTable, hcast]
    rw [hstep, hfloor]
    norm_num
  · have hstep : calculateJICentsForNote 61 "C"
        = 1200 * Real.logb 2 ((16 : ℝ) / 15) - 100 := by
      simp only [calculateJICentsForNote, ratioToCentsDeviation, getKeyRoot,
        isMinorKey]
      norm_num [jiRatio, jiRatioTable, hcast]
    rw [hstep, abs_sub_lt_iff]
    constructor <;> [nlinarith; nlinarith]

/-- **C7 (counterexample).** A pitch-bend value exceeding the representable
range **is** sent: `sendPitchBend` with bend value 12288 (> 8191) reports
3 bytes sent and emits the message `[0xE1, 127, 127]` carrying the silently
clamped value 8191; likewise `centsToPitchBend 300` (an out-of-range +300
cents at the ±200-cent bend range) silently returns the clamp 8191 with no
report.  This refutes the claim that such values are "not sent — logged, not
wrapped". -/
theorem c7_out_of_range_bend_is_sent :
    sendPitchBend true (some 1) 12288 = (3, [[0xE1, 127, 127]]) ∧
    centsToPitchBend 300 = 8191 := by
  constructor
  · decide
  · rw [centsToPitchBend]
    have h : jsRoundR ((300 : ℝ) / 200 * 8192) = 12288 := by
      rw [jsRoundR]
      norm_num
    rw [h]
    decide

/-- **C7 (amended).** In the ChannelRotation (MPE) backend, a per-note
pitch-bend value outside `[-8192, 8191]` is silently clamped to that range
and sent anyway — `sendPitchBend` always emits exactly one 3-byte message
whose 14-bit payload encodes the clamped value (so nothing wraps), and
`centsToPitchBend` clamps to the representable range without reporting that
clamping occurred. -/
theorem sendPitchBend_clamps_and_sends (ch : ℕ) (bv : ℤ) (cents : ℝ) :
    sendPitchBend true (some ch) bv
      = (3, [[0xE0 ||| ch,
              ((max (-8192) (min 8191 bv) + 8192).toNat) % 128,
              (((max (-8192) (min 8191 bv) + 8192).toNat) / 128) % 128]]) ∧
    -8192 ≤ centsToPitchBend cents ∧ centsToPitchBend cents ≤ 8191 := by
  refine ⟨rfl, le_max_left _ _, ?_⟩
  exact max_le (by norm_num) (min_le_left _ _)

theorem amFind_append {β : Type} (m₁ m₂ : List (ℕ × β)) (k : ℕ) :
    amFind (m₁ ++ m₂) k
      = match amFind m₁ k with
        | some v => some v
        | none => amFind m₂ k := by
  induction m₁ with
  | nil => simp [amFind]
  | cons p rest ih =>
    obtain ⟨k', v⟩ := p
    by_cases h : k' = k <;> simp [amFind, h, ih]

theorem amFind_amDelete_self {β : Type} (m : List (ℕ × β)) (k : ℕ) :
    amFind (amDelete m k) k = none := by
  rw [amFind_eq_none, amKeys_amDelete]
  intro h
  have := List.of_mem_filter h
  simp at this

theorem amFind_amDelete_ne {β : Type} (m : List (ℕ × β)) {k x : ℕ}
    (h : x ≠ k) : amFind (amDelete m k) x = amFind m x := by
  induction m with
  | nil => rfl
  | cons p rest ih =>
    obtain ⟨k', v⟩ := p
    by_cases hk : k' = k
    · subst hk
      have : amDelete ((k', v) :: rest) k' = amDelete rest k' := by
        simp [amDelete]
      rw [this, ih, amFind]
      rw [if_neg (fun hx => h hx.symm)]
    · have : amDelete ((k', v) :: rest) k = (k', v) :: amDelete rest k := by
        simp [amDelete, hk]
      rw [this]
      by_cases hx : k' = x
      · simp [amFind, hx]
      · simp [amFind, hx, ih]

/-- **C10.** Across every sequence of `allocateChannel` / `releaseChannel` /
`resetMPEState` calls starting from the reset state: the free channel pool has
no duplicate entries, never contains the master channel 0, is disjoint from
the channels currently assigned in the active-note map, and every channel in
either collection is one of the 15 member channels 1–15. -/
theorem mpe_channel_state_invariant (ops : List MPEOp) :
    (runMPEOps ops).channelPool.Nodup ∧
    MPE_MASTER_CHANNEL ∉ (runMPEOps ops).channelPool ∧
    (∀ c ∈ (runMPEOps ops).channelPool,
      c ∉ amValues (runMPEOps ops).activeNotes) ∧
    (∀ c ∈ (runMPEOps ops).channelPool, c ∈ MPE_MEMBER_CHANNELS) ∧
    (∀ c ∈ amValues (runMPEOps ops).activeNotes, c ∈ MPE_MEMBER_CHANNELS) := by
  have hinv := mpeStateInvariant_runMPEOps ops
  obtain ⟨hpool, hvals, hdisj, hbp, hbv⟩ := mpeStateInvariant.derived hinv
  refine ⟨hpool, ?_, hdisj, ?_, ?_⟩
  · intro h
    have := (hbp _ h).1
    simp [MPE_MASTER_CHANNEL] at this
  · intro c hc
    exact mem_MPE_MEMBER_CHANNELS.mpr (hbp c hc)
  · intro c hc
    exact mem_MPE_MEMBER_CHANNELS.mpr (hbv c hc)

/-- Helper for the allocation claims: distinct channels at every reachable
state, and the exact shape of a steal when the pool is exhausted. -/
theorem mpe_alloc_steal_helper (ops : List MPEOp) (k : ℕ) :
    (amValues (runMPEOps ops).activeNotes).Nodup ∧
    (runMPEOps ops).activeNotes.length ≤ 15 ∧
    ((runMPEOps ops).channelPool = [] → k ≠ 0 →
      amFind (runMPEOps ops).activeNotes k = none →
      ∃ r rest c,
        (runMPEOps ops).channelUsageOrder = r :: rest ∧
        amFind (runMPEOps ops).activeNotes r = some c ∧
        allocateChannel (runMPEOps ops) k
          = (.stolen c r,
             { runMPEOps ops with
                 activeNotes :=
                   amDelete (runMPEOps ops).activeNotes r ++ [(k, c)]
                 channelUsageOrder := rest ++ [k] }) ∧
        amFind (amDelete (runMPEOps ops).activeNotes r ++ [(k, c)]) r
          = none ∧
        amFind (amDelete (runMPEOps ops).activeNotes r ++ [(k, c)]) k
          = some c ∧
        (∀ x, x ≠ r → x ≠ k →
          amFind (amDelete (runMPEOps ops).activeNotes r ++ [(k, c)]) x
            = amFind (runMPEOps ops).activeNotes x) ∧
        (amValues
          (amDelete (runMPEOps ops).activeNotes r ++ [(k, c)])).Nodup) := by
  set s := runMPEOps ops with hs
  have hinv := mpeStateInvariant_runMPEOps ops
  rw [← hs] at hinv
  obtain ⟨hperm, hkeys, horder⟩ := hinv
  obtain ⟨-, hvals, -, -, -⟩ := mpeStateInvariant.derived ⟨hperm, hkeys, horder⟩
  have hmemnd : MPE_MEMBER_CHANNELS.Nodup := by decide
  refine ⟨hvals, ?_, ?_⟩
  · -- at most 15 concurrent notes
    have hsub : amValues s.activeNotes ⊆ MPE_MEMBER_CHANNELS := fun c hc =>
      hperm.mem_iff.mp (List.mem_append_right _ hc)
    have hle := (List.subperm_of_subset hvals hsub).length_le
    simpa [amValues, MPE_MEMBER_CHANNELS] using hle
  · intro hpool hk hfind
    -- the pool is empty, so all 15 member channels are assigned
    have hvperm : List.Perm (amValues s.activeNotes) MPE_MEMBER_CHANNELS := by
      have := hperm
      rw [hpool, List.nil_append] at this
      exact this
    have hlen : s.channelUsageOrder.length = 15 := by
      have h1 := horder.length_eq
      have h2 : (amKeys s.activeNotes).length = 15 := by
        have h3 := hvperm.length_eq
        simp only [amValues, List.length_map, MPE_MEMBER_CHANNELS,
          List.length_map, List.length_range] at h3
        simpa [amKeys] using h3
      omega
    rcases hord : s.channelUsageOrder with _ | ⟨r, rest⟩
    · rw [hord] at hlen
      simp at hlen
    have hrk : r ∈ amKeys s.activeNotes := by
      refine horder.mem_iff.mp ?_
      rw [hord]
      exact List.mem_cons_self r rest
    obtain ⟨c, hfr⟩ : ∃ c, amFind s.activeNotes r = some c := by
      have := (amFind_isSome_iff s.activeNotes r).mpr hrk
      exact Option.isSome_iff_exists.mp this
    have hknotmem : k ∉ amKeys s.activeNotes := (amFind_eq_none _ _).mp hfind
    have hkdel : k ∉ amKeys (amDelete s.activeNotes r) := by
      rw [amKeys_amDelete]
      exact fun hx => hknotmem (List.mem_of_mem_filter hx)
    have hset : amSet (amDelete s.activeNotes r) k c
        = amDelete s.activeNotes r ++ [(k, c)] := amSet_of_not_mem _ hkdel
    have hne : r ≠ k := fun h => hknotmem (h ▸ hrk)
    refine ⟨r, rest, c, rfl, hfr, ?_, ?_, ?_, ?_, ?_⟩
    · simp [allocateChannel, hk, hfind, hpool, hord, hfr, hset]
    · rw [amFind_append, amFind_amDelete_self]
      simp [amFind, hne.symm]
    · rw [amFind_append, amFind_amDelete_ne _ (Ne.symm hne), hfind]
      simp [amFind]
    · intro x hxr hxk
      rw [amFind_append, amFind_amDelete_ne _ hxr]
      rcases hfx : amFind s.activeNotes x with _ | v
      · simp [amFind, Ne.symm hxk]
      · simp
    · have hvdel := amValues_amDelete_perm hkeys hfr
      have hcv : c ∈ amValues s.activeNotes := mem_amValues_of_amFind hfr
      have hnew : List.Perm
          (amValues (amDelete s.activeNotes r ++ [(k, c)]))
          (amValues s.activeNotes) := by
        calc amValues (amDelete s.activeNotes r ++ [(k, c)])
            = amValues (amDelete s.activeNotes r) ++ [c] := by
              rw [amValues_append]; rfl
          _ ~ (amValues s.activeNotes).erase c ++ [c] := hvdel.append_right _
          _ ~ c :: (amValues s.activeNotes).erase c :=
              List.perm_append_singleton _ _
          _ ~ amValues s.activeNotes := (List.perm_cons_erase hcv).symm
      exact hnew.nodup_iff.mpr hvals

/-- **C2.** At every reachable MPE state, concurrently held notes all hold
pairwise distinct member channels (so at most 15 notes hold channels), and
when a fresh note arrives while the free pool is exhausted, exactly one steal
occurs: `allocateChannel` reassigns the channel of the least-recently-used
note — the head of `channelUsageOrder` — to the new note, the previous owner
loses its channel, every other note keeps its channel, and the assigned
channels remain pairwise distinct. -/
theorem mpe_channel_allocation_distinct_and_steal (ops : List MPEOp) (k : ℕ) :
    (amValues (runMPEOps ops).activeNotes).Nodup ∧
    (runMPEOps ops).activeNotes.length ≤ 15 ∧
    ((runMPEOps ops).channelPool = [] → k ≠ 0 →
      amFind (runMPEOps ops).activeNotes k = none →
      ∃ r rest c,
        (runMPEOps ops).channelUsageOrder = r :: rest ∧
        amFind (runMPEOps ops).activeNotes r = some c ∧
        allocateChannel (runMPEOps ops) k
          = (.stolen c r,
             { runMPEOps ops with
                 activeNotes :=
                   amDelete (runMPEOps ops).activeNotes r ++ [(k, c)]
                 channelUsageOrder := rest ++ [k] }) ∧
        amFind (amDelete (runMPEOps ops).activeNotes r ++ [(k, c)]) r
          = none ∧
        amFind (amDelete (runMPEOps ops).activeNotes r ++ [(k, c)]) k
          = some c ∧
        (∀ x, x ≠ r → x ≠ k →
          amFind (amDelete (runMPEOps ops).activeNotes r ++ [(k, c)]) x
            = amFind (runMPEOps ops).activeNotes x) ∧
        (amValues
          (amDelete (runMPEOps ops).activeNotes r ++ [(k, c)])).Nodup) :=
  mpe_alloc_steal_helper ops k

/-- Fifteen distinct note-on allocations against the reset state: the scenario
that exhausts the channel pool. -/
def fifteenAllocOps : List MPEOp :=
  (List.range 15).map (fun i => MPEOp.alloc (i + 1))

/-- Witness for C2: after fifteen distinct notes fill the pool, a sixteenth
note (id 16) steals the least-recently-used channel. -/
theorem mpe_channel_allocation_witness :
    (runMPEOps fifteenAllocOps).channelPool = [] ∧
    (∃ r rest c,
      (runMPEOps fifteenAllocOps).channelUsageOrder = r :: rest ∧
      amFind (runMPEOps fifteenAllocOps).activeNotes r = some c ∧
      allocateChannel (runMPEOps fifteenAllocOps) 16
        = (.stolen c r,
           { runMPEOps fifteenAllocOps with
               activeNotes :=
                 amDelete (runMPEOps fifteenAllocOps).activeNotes r
                   ++ [(16, c)]
               channelUsageOrder := rest ++ [16] }) ∧
      amFind (amDelete (runMPEOps fifteenAllocOps).activeNotes r ++ [(16, c)]) r
        = none ∧
      amFind (amDelete (runMPEOps fifteenAllocOps).activeNotes r ++ [(16, c)]) 16
        = some c ∧
      (∀ x, x ≠ r → x ≠ 16 →
        amFind (amDelete (runMPEOps fifteenAllocOps).activeNotes r ++ [(16, c)]) x
          = amFind (runMPEOps fifteenAllocOps).activeNotes x) ∧
      (amValues
        (amDelete (runMPEOps fifteenAllocOps).activeNotes r ++ [(16, c)])).Nodup) :=
  ⟨by decide,
    (mpe_channel_allocation_distinct_and_steal fifteenAllocOps 16).2.2
      (by decide) (by decide) (by decide)⟩

/-- `allocateChannel` neither reads nor writes
`pitchBendRangeInitialized`. -/
theorem allocateChannel_pbInit (s : MPEState) (b : Bool) (k : ℕ) :
    allocateChannel { s with pitchBendRangeInitialized := b } k
      = ((allocateChannel s k).1,
         { (allocateChannel s k).2 with pitchBendRangeInitialized := b }) := by
  by_cases h0 : k = 0
  · simp [allocateChannel, h0]
  rcases hfind : amFind s.activeNotes k with _ | c
  · rcases hpool : s.channelPool with _ | ⟨c, rest⟩
    · rcases hord : s.channelUsageOrder with _ | ⟨r, restO⟩
      · simp [allocateChannel, h0, hfind, hpool, hord]
      · rcases hfr : amFind s.activeNotes r with _ | c
        · simp [allocateChannel, h0, hfind, hpool, hord, hfr]
        · simp [allocateChannel, h0, hfind, hpool, hord, hfr]
    · simp [allocateChannel, h0, hfind, hpool]
  · simp [allocateChannel, h0, hfind]

/-- **C6 (counterexample).** A sixteenth near-simultaneous note-on that finds
the 15-channel pool exhausted is **not** dropped and no resource-exhausted
signal is returned: `allocateChannel` steals a channel instead of returning
`null`, and `forwardNoteExternal` sends the note's messages. -/
theorem c6_exhausted_pool_note_is_sent :
    (allocateChannel (runMPEOps fifteenAllocOps) 16).1 ≠ AllocResult.null ∧
    (forwardNoteExternal false (runMPEOps fifteenAllocOps) 16 60 100 0 0
        true).dropped = false ∧
    (forwardNoteExternal false (runMPEOps fifteenAllocOps) 16 60 100 0 0
        true).messages ≠ [] := by
  decide

/-- **C6 (amended).** In MPE mode, a note-on is dropped with a warning — no
note message sent, zero tuning bytes counted — exactly in the cases where
`allocateChannel` returns `null` (a falsy note id, or an empty pool with no
active notes to steal from); but when the pool is exhausted *with* live notes
(the spec's 16th-note scenario), the backend does **not** signal resource
exhaustion: it steals the least-recently-used channel and the note is sent. -/
theorem forwardNote_drop_only_on_null_allocation :
    (∀ (s : MPEState) (noteId note vel inCh : ℕ) (pb : ℤ),
      (allocateChannel (if s.pitchBendRangeInitialized then s
          else { s with pitchBendRangeInitialized := true }) noteId).1
        = AllocResult.null →
      (forwardNoteExternal false s noteId note vel pb inCh true).dropped
        = true ∧
      (forwardNoteExternal false s noteId note vel pb inCh true).messages
        = (if s.pitchBendRangeInitialized then []
           else initPitchBendRangeMessages) ∧
      (forwardNoteExternal false s noteId note vel pb inCh true).bytesSent
        = 0) ∧
    (∀ (ops : List MPEOp) (noteId note vel inCh : ℕ) (pb : ℤ),
      (runMPEOps ops).channelPool = [] → noteId ≠ 0 →
      amFind (runMPEOps ops).activeNotes noteId = none →
      (forwardNoteExternal false (runMPEOps ops) noteId note vel pb inCh
          true).dropped = false ∧
      (forwardNoteExternal false (runMPEOps ops) noteId note vel pb inCh
          true).messages ≠ []) := by
  constructor
  · intro s noteId note vel inCh pb h
    by_cases hpb : s.pitchBendRangeInitialized
    · rw [if_pos hpb] at h
      rcases halloc : allocateChannel s noteId with ⟨res, s1⟩
      rw [halloc] at h
      simp only at h
      subst h
      refine ⟨?_, ?_, ?_⟩ <;>
        simp [forwardNoteExternal, hpb, halloc]
    · rw [if_neg hpb] at h
      rcases halloc : allocateChannel
          { s with pitchBendRangeInitialized := true } noteId with ⟨res, s1⟩
      rw [halloc] at h
      simp only at h
      subst h
      refine ⟨?_, ?_, ?_⟩ <;>
        simp [forwardNoteExternal, hpb, halloc]
  · intro ops noteId note vel inCh pb hpool hk hfind
    obtain ⟨-, -, hsteal⟩ := mpe_alloc_steal_helper ops noteId
    obtain ⟨r, rest, c, -, -, halloc, -, -, -, -⟩ := hsteal hpool hk hfind
    by_cases hpb : (runMPEOps ops).pitchBendRangeInitialized
    · constructor <;>
        simp [forwardNoteExternal, hpb, halloc]
    · have halloc2 := allocateChannel_pbInit (runMPEOps ops) true noteId
      rw [halloc] at halloc2
      constructor <;>
        simp [forwardNoteExternal, hpb, halloc2]

/-- Witness for the amended C6: note id 0 (falsy) is dropped against the
initialized reset state; the sixteenth note against a full pool is not. -/
theorem forwardNote_drop_witness :
    ((allocateChannel (if ({ resetMPEState with
          pitchBendRangeInitialized := true } : MPEState).pitchBendRangeInitialized
        then ({ resetMPEState with pitchBendRangeInitialized := true } : MPEState)
        else { ({ resetMPEState with pitchBendRangeInitialized := true } : MPEState)
            with pitchBendRangeInitialized := true }) 0).1 = AllocResult.null ∧
      (forwardNoteExternal false
        { resetMPEState with pitchBendRangeInitialized := true }
        0 60 100 0 0 true).dropped = true) ∧
    ((runMPEOps fifteenAllocOps).channelPool = [] ∧
      (forwardNoteExternal false (runMPEOps fifteenAllocOps) 16 60 100 0 0
          true).dropped = false) := by
  have h1 := (forwardNote_drop_only_on_null_allocation).1
    { resetMPEState with pitchBendRangeInitialized := true } 0 60 100 0 0
    (by decide)
  have h2 := (forwardNote_drop_only_on_null_allocation).2
    fifteenAllocOps 16 60 100 0 0 (by decide) (by decide) (by decide)
  exact ⟨⟨by decide, h1.1⟩, ⟨by decide, h2.1⟩⟩

/-- **C5.** When `applyTuning` consumes a predictive entry carrying a (truthy)
timestamp, an entry whose age `now − timestamp·1000` exceeds 60 000 ms is
discarded as stale — the only trace is the warning log flag — and the note
falls back to reactive tuning with the entry consumed from its queue; an entry
whose age is at most 60 000 ms (e.g. 59 s) is applied predictively.  (So a 61 s
old entry is discarded, a 59 s old entry is applied.) -/
theorem stale_prediction_discarded_fresh_applied (ps : PredState) (sf : Bool)
    (mk dk : Option String) (note vel : ℕ) (now t : ℚ) (entry : PredEntry)
    (rest : List PredEntry)
    (hq : amFind ps.table note = some (entry :: rest))
    (hact : ps.active = true)
    (hts : entry.timestampField = some t) (ht0 : t ≠ 0) :
    (now - t * 1000 > 60000 →
      applyTuning ps sf mk dk note vel now
        = (reactiveTunedNote sf mk dk note vel,
           predConsumeCleanup entry note rest
             { ps with table := amSet ps.table note rest }, true)) ∧
    (¬ now - t * 1000 > 60000 →
      applyTuning ps sf mk dk note vel now
        = ((applyPredictiveTuning entry note vel rest
             { ps with table := amSet ps.table note rest }).1,
           (applyPredictiveTuning entry note vel rest
             { ps with table := amSet ps.table note rest }).2, false)) := by
  constructor
  · intro hstale
    simp [applyTuning, hq, hact, hts, ht0, PREDICTION_STALENESS_THRESHOLD,
      hstale]
  · intro hfresh
    simp [applyTuning, hq, hact, hts, ht0, PREDICTION_STALENESS_THRESHOLD,
      hfresh]

/-- Witness for C5: an entry stamped `t = 100 s` consumed at `now = 161 000 ms`
(61 s later) is discarded and reactive tuning is used; consumed at
`now = 159 000 ms` (59 s later) it is applied. -/
theorem stale_prediction_witness :
    (applyTuning
        { table := [(60, [PredEntry.obj (some 1) (some 100) (some 5) none])]
          active := true
          seenIds := [1] } false none none 60 100 161000
      = (reactiveTunedNote false none none 60 100,
         predConsumeCleanup (PredEntry.obj (some 1) (some 100) (some 5) none)
           60 []
           { table := [(60, [])]
             active := true
             seenIds := [1] }, true)) ∧
    (applyTuning
        { table := [(60, [PredEntry.obj (some 1) (some 100) (some 5) none])]
          active := true
          seenIds := [1] } false none none 60 100 159000
      = ((applyPredictiveTuning
            (PredEntry.obj (some 1) (some 100) (some 5) none) 60 100 []
            { table := [(60, [])]
              active := true
              seenIds := [1] }).1,
          (applyPredictiveTuning
            (PredEntry.obj (some 1) (some 100) (some 5) none) 60 100 []
            { table := [(60, [])]
              active := true
              seenIds := [1] }).2, false)) := by
  have hq : amFind
      ([(60, [PredEntry.obj (some 1) (some 100) (some 5) none])]
        : List (ℕ × List PredEntry)) 60
      = some [PredEntry.obj (some 1) (some 100) (some 5) none] := by decide
  have hset : amSet
      ([(60, [PredEntry.obj (some 1) (some 100) (some 5) none])]
        : List (ℕ × List PredEntry)) 60 ([] : List PredEntry)
      = [(60, [])] := by decide
  constructor
  · have h := (stale_prediction_discarded_fresh_applied
      { table := [(60, [PredEntry.obj (some 1) (some 100) (some 5) none])]
        active := true
        seenIds := [1] } false none none 60 100 161000 100
      (PredEntry.obj (some 1) (some 100) (some 5) none) []
      hq rfl rfl (by norm_num)).1 (by norm_num)
    rw [h, hset]
  · have h := (stale_prediction_discarded_fresh_applied
      { table := [(60, [PredEntry.obj (some 1) (some 100) (some 5) none])]
        active := true
        seenIds := [1] } false none none 60 100 159000 100
      (PredEntry.obj (some 1) (some 100) (some 5) none) []
      hq rfl rfl (by norm_num)).2 (by norm_num)
    rw [h, hset]

/-! ### Score bounds for the ensemble detector -/

theorem normalizedHistogram_nonneg (buffer : List ℕ) (i : Fin 12) :
    0 ≤ normalizedHistogram buffer i := by
  rw [normalizedHistogram]
  positivity

theorem normalizedHistogram_sum_one (buffer : List ℕ)
    (h : totalCount buffer ≠ 0) :
    ∑ i : Fin 12, normalizedHistogram buffer i = 1 := by
  have hT : ((totalCount buffer : ℚ)) ≠ 0 := by exact_mod_cast h
  have hsum : ∑ i : Fin 12, (noteHistogram buffer i : ℚ)
      = (totalCount buffer : ℚ) := by
    rw [totalCount, ← Fin.sum_univ_def]
    push_cast
    rfl
  calc ∑ i : Fin 12, normalizedHistogram buffer i
      = (∑ i : Fin 12, (noteHistogram buffer i : ℚ)) / (totalCount buffer : ℚ)
        := by
        rw [Finset.sum_div]
        rfl
    _ = 1 := by rw [hsum, div_self hT]

/-- A probability-weighted sum is bounded by a bound on the weights'
values. -/
theorem weighted_sum_le {h v : Fin 12 → ℚ} {M : ℚ}
    (hh : ∀ i, 0 ≤ h i) (hsum : ∑ i : Fin 12, h i = 1)
    (hv : ∀ i, v i ≤ M) : ∑ i : Fin 12, h i * v i ≤ M := by
  calc ∑ i : Fin 12, h i * v i
      ≤ ∑ i : Fin 12, h i * M :=
        Finset.sum_le_sum fun i _ => mul_le_mul_of_nonneg_left (hv i) (hh i)
    _ = (∑ i : Fin 12, h i) * M := by rw [Finset.sum_mul]
    _ = M := by rw [hsum, one_mul]

theorem weighted_sum_nonneg {h v : Fin 12 → ℚ}
    (hh : ∀ i, 0 ≤ h i) (hv : ∀ i, 0 ≤ v i) :
    0 ≤ ∑ i : Fin 12, h i * v i :=
  Finset.sum_nonneg fun i _ => mul_nonneg (hh i) (hv i)

theorem keyScore_as_finset_sum (h : Fin 12 → ℚ) (p : KMode → List ℚ)
    (k : DKey) :
    keyScore h p k = ∑ i : Fin 12, h i * rotatedProfile p k i := by
  rw [keyScore, Fin.sum_univ_def]

/-- A `getD`-indexed list whose members lie in `[0, M]` yields values in
`[0, M]` (the default 0 included). -/
theorem getD_bounds {l : List ℚ} {M : ℚ} (hM : 0 ≤ M)
    (h : ∀ x ∈ l, 0 ≤ x ∧ x ≤ M) (n : ℕ) :
    0 ≤ l.getD n 0 ∧ l.getD n 0 ≤ M := by
  rcases lt_or_ge n l.length with hn | hn
  · rw [List.getD_eq_getElem l 0 hn]
    exact h _ (List.getElem_mem hn)
  · rw [List.getD_eq_default l 0 hn]
    exact ⟨le_refl 0, hM⟩

theorem keyScore_bounds {p : KMode → List ℚ} {M : ℚ} (buffer : List ℕ)
    (ht : totalCount buffer ≠ 0) (hM : 0 ≤ M)
    (hp : ∀ m, ∀ x ∈ p m, 0 ≤ x ∧ x ≤ M) (k : DKey) :
    0 ≤ keyScore (normalizedHistogram buffer) p k ∧
    keyScore (normalizedHistogram buffer) p k ≤ M := by
  rw [keyScore_as_finset_sum]
  constructor
  · exact weighted_sum_nonneg (normalizedHistogram_nonneg buffer)
      (fun i => (getD_bounds hM (hp k.mode) _).1)
  · exact weighted_sum_le (normalizedHistogram_nonneg buffer)
      (normalizedHistogram_sum_one buffer ht)
      (fun i => (getD_bounds hM (hp k.mode) _).2)

/-- `pickBestKey` preserves any predicate satisfied by every candidate's
score. -/
theorem pickBestKey_bound (P : ℚ → Prop) (score : DKey → ℚ)
    (hall : ∀ k, P (score k)) : P (pickBestKey score).2 := by
  rw [pickBestKey]
  have : ∀ (l : List DKey) (init : DKey × ℚ), P init.2 →
      P (l.foldl (fun acc k => if score k > acc.2 then (k, score k) else acc)
        init).2 := by
    intro l
    induction l with
    | nil => intro init h; exact h
    | cons x xs ih =>
      intro init h
      rw [List.foldl_cons]
      by_cases hx : score x > init.2
      · rw [if_pos hx]
        exact ih _ (hall x)
      · rw [if_neg hx]
        exact ih _ h
  exact this _ _ (hall _)

theorem albrechtShanahan_entry_bounds :
    ∀ (m : KMode), ∀ x ∈ albrechtShanahanProfile m, 0 ≤ x ∧
      x ≤ 238/1000 := by
  intro m x hx
  cases m <;> fin_cases hx <;> norm_num

theorem temperley_entry_bounds :
    ∀ (m : KMode), ∀ x ∈ temperleyProfile m, 0 ≤ x ∧
      x ≤ 179/1000 := by
  intro m x hx
  cases m <;> fin_cases hx <;> norm_num

theorem krumhanslKessler_entry_bounds :
    ∀ (m : KMode), ∀ x ∈ krumhanslKesslerProfile m, 0 ≤ x ∧
      x ≤ 152/1000 := by
  intro m x hx
  cases m <;> fin_cases hx <;> norm_num

/-! ### Concrete evaluations of the ensemble detector

Two test buffers: eight repeated C's (an unambiguous C-major vote with 2/3
agreement) and seven C's plus one G (a unanimous C-major vote whose
confidence product is not an integer). -/

theorem finRange12 : List.finRange 12 =
    [⟨0, by norm_num⟩, ⟨1, by norm_num⟩, ⟨2, by norm_num⟩, ⟨3, by norm_num⟩,
     ⟨4, by norm_num⟩, ⟨5, by norm_num⟩, ⟨6, by norm_num⟩, ⟨7, by norm_num⟩,
     ⟨8, by norm_num⟩, ⟨9, by norm_num⟩, ⟨10, by norm_num⟩,
     ⟨11, by norm_num⟩] := by decide

theorem fin12_sub_val (a b : Fin 12) :
    ((a - b : Fin 12) : ℕ) = (12 - (b : ℕ) + (a : ℕ)) % 12 := by
  rw [Fin.sub_def]

/-- Eight C's. -/
def bufC : List ℕ := [0, 0, 0, 0, 0, 0, 0, 0]

/-- Seven C's and one G. -/
def bufCG : List ℕ := [0, 0, 0, 0, 0, 0, 0, 7]

set_option maxHeartbeats 4000000 in
theorem eval_AS_bufC :
    pickBestKey (keyScore (normalizedHistogram bufC) albrechtShanahanProfile)
      = (⟨⟨0, by norm_num⟩, KMode.major⟩, 238/1000) := by
  norm_num [pickBestKey, candidateKeys, finRange12, keyScore, rotatedProfile,
    fin12_sub_val, normalizedHistogram, noteHistogram, totalCount, bufC,
    albrechtShanahanProfile, List.foldl, List.flatMap]

set_option maxHeartbeats 4000000 in
theorem eval_T_bufC :
    pickBestKey (keyScore (normalizedHistogram bufC) temperleyProfile)
      = (⟨⟨5, by norm_num⟩, KMode.minor⟩, 179/1000) := by
  norm_num [pickBestKey, candidateKeys, finRange12, keyScore, rotatedProfile,
    fin12_sub_val, normalizedHistogram, noteHistogram, totalCount, bufC,
    temperleyProfile, List.foldl, List.flatMap]

set_option maxHeartbeats 4000000 in
theorem eval_KK_bufC :
    pickBestKey (keyScore (normalizedHistogram bufC) krumhanslKesslerProfile)
      = (⟨⟨0, by norm_num⟩, KMode.major⟩, 152/1000) := by
  norm_num [pickBestKey, candidateKeys, finRange12, keyScore, rotatedProfile,
    fin12_sub_val, normalizedHistogram, noteHistogram, totalCount, bufC,
    krumhanslKesslerProfile, List.foldl, List.flatMap]

set_option maxHeartbeats 4000000 in
theorem eval_AS_bufCG :
    pickBestKey (keyScore (normalizedHistogram bufCG) albrechtShanahanProfile)
      = (⟨⟨0, by norm_num⟩, KMode.major⟩, 47/200) := by
  norm_num [pickBestKey, candidateKeys, finRange12, keyScore, rotatedProfile,
    fin12_sub_val, normalizedHistogram, noteHistogram, totalCount, bufCG,
    albrechtShanahanProfile, List.foldl, List.flatMap]

set_option maxHeartbeats 4000000 in
theorem eval_T_bufCG :
    pickBestKey (keyScore (normalizedHistogram bufCG) temperleyProfile)
      = (⟨⟨0, by norm_num⟩, KMode.major⟩, 7/40) := by
  norm_num [pickBestKey, candidateKeys, finRange12, keyScore, rotatedProfile,
    fin12_sub_val, normalizedHistogram, noteHistogram, totalCount, bufCG,
    temperleyProfile, List.foldl, List.flatMap]

set_option maxHeartbeats 4000000 in
theorem eval_KK_bufCG :
    pickBestKey (keyScore (normalizedHistogram bufCG) krumhanslKesslerProfile)
      = (⟨⟨0, by norm_num⟩, KMode.major⟩, 297/2000) := by
  norm_num [pickBestKey, candidateKeys, finRange12, keyScore, rotatedProfile,
    fin12_sub_val, normalizedHistogram, noteHistogram, totalCount, bufCG,
    krumhanslKesslerProfile, List.foldl, List.flatMap]

set_option maxRecDepth 8000 in
set_option maxHeartbeats 2000000 in
theorem eval_finalPick_bufC :
    finalPick (keyVotes bufC)
      = some { key := ⟨⟨0, by norm_num⟩, KMode.major⟩,
               weightedScore := 11/80, voteCount := 2 } := by
  norm_num [keyVotes, profileBests, ensembleProfiles, eval_AS_bufC,
    eval_T_bufC, eval_KK_bufC, insertVote, finalPick, List.foldl, Fin.ext_iff]

set_option maxRecDepth 8000 in
set_option maxHeartbeats 2000000 in
theorem eval_finalPick_bufCG :
    finalPick (keyVotes bufCG)
      = some { key := ⟨⟨0, by norm_num⟩, KMode.major⟩,
               weightedScore := 1967/10000, voteCount := 3 } := by
  norm_num [keyVotes, profileBests, ensembleProfiles, eval_AS_bufCG,
    eval_T_bufCG, eval_KK_bufCG, insertVote, finalPick, List.foldl, Fin.ext_iff]

set_option maxRecDepth 8000 in
set_option maxHeartbeats 2000000 in
theorem eval_detect_bufC :
    detectKeyEnsemble none bufC "medium"
      = (some { key := ⟨⟨0, by norm_num⟩, KMode.major⟩,
                confidence := 55, agreement := 2 },
         some ⟨⟨0, by norm_num⟩, KMode.major⟩) := by
  have ht : totalCount bufC = 8 := by
    norm_num [totalCount, noteHistogram, finRange12, bufC]
  norm_num [detectKeyEnsemble, ht, eval_finalPick_bufC, sensitivityThreshold,
    agreementBonus, jsRound, Fin.ext_iff,
    (show ¬ ("medium" : String) = "high" by decide)]
  exact fun h => absurd h (by simp)

set_option maxRecDepth 8000 in
set_option maxHeartbeats 2000000 in
theorem eval_detect_bufCG :
    detectKeyEnsemble none bufCG "medium"
      = (some { key := ⟨⟨0, by norm_num⟩, KMode.major⟩,
                confidence := 94, agreement := 3 },
         some ⟨⟨0, by norm_num⟩, KMode.major⟩) := by
  have ht : totalCount bufCG = 8 := by
    norm_num [totalCount, noteHistogram, finRange12, bufCG]
  norm_num [detectKeyEnsemble, ht, eval_finalPick_bufCG, sensitivityThreshold,
    agreementBonus, jsRound, Fin.ext_iff,
    (show ¬ ("medium" : String) = "high" by decide)]
  exact fun h => absurd h (by simp)

/-- **C3.** The ensemble detector's thresholds are 0.05/0.04/0.03 for
low/medium/high sensitivity; it returns no estimate when the winning weighted
score is below the selected threshold or the winning key equals the stored
stable key (and then leaves the stable key unchanged); consequently feeding
the identical buffer twice in a row always yields no estimate on the second
call and the same stable key — no alternation. -/
theorem detector_threshold_and_hysteresis (ck : Option DKey)
    (buffer : List ℕ) (sensitivity : String) :
    sensitivityThreshold "low" = 5/100 ∧
    sensitivityThreshold "medium" = 4/100 ∧
    sensitivityThreshold "high" = 3/100 ∧
    (∀ fv, finalPick (keyVotes buffer) = some fv →
      fv.weightedScore < sensitivityThreshold sensitivity ∨ some fv.key = ck →
      detectKeyEnsemble ck buffer sensitivity = (none, ck)) ∧
    detectKeyEnsemble (detectKeyEnsemble ck buffer sensitivity).2 buffer
        sensitivity
      = (none, (detectKeyEnsemble ck buffer sensitivity).2) := by
  refine ⟨?_, ?_, ?_, ?_, ?_⟩
  · rw [sensitivityThreshold, if_neg (by decide), if_neg (by decide)]
  · rw [sensitivityThreshold, if_neg (by decide), if_pos rfl]
  · rw [sensitivityThreshold, if_pos rfl]
  · intro fv hfp hcond
    by_cases ht : totalCount buffer = 0
    · simp [detectKeyEnsemble, ht]
    · simp only [detectKeyEnsemble, if_neg ht, hfp]
      rw [if_neg]
      rintro ⟨hge, hne⟩
      rcases hcond with hlt | heq
      · exact absurd hge (not_le.mpr hlt)
      · exact hne heq
  · by_cases ht : totalCount buffer = 0
    · simp [detectKeyEnsemble, ht]
    · rcases hfp : finalPick (keyVotes buffer) with _ | fv
      · simp [detectKeyEnsemble, ht, hfp]
      · by_cases hg : fv.weightedScore ≥ sensitivityThreshold sensitivity ∧
            some fv.key ≠ ck
        · have h2 : (detectKeyEnsemble ck buffer sensitivity).2
              = some fv.key := by
            simp only [detectKeyEnsemble, if_neg ht, hfp]
            rw [if_pos hg]
          rw [h2]
          simp only [detectKeyEnsemble, if_neg ht, hfp]
          rw [if_neg]
          rintro ⟨-, hne⟩
          exact hne rfl
        · have h2 : (detectKeyEnsemble ck buffer sensitivity).2 = ck := by
            simp only [detectKeyEnsemble, if_neg ht, hfp]
            rw [if_neg hg]
          rw [h2]
          simp only [detectKeyEnsemble, if_neg ht, hfp]
          rw [if_neg hg]

/-- Witness for C3: with the stable key already C major, the all-C buffer
(whose winner is C major) produces no estimate — hysteresis — and a repeated
identical call starting from no key returns no estimate the second time. -/
theorem detector_threshold_witness :
    detectKeyEnsemble (some ⟨⟨0, by norm_num⟩, KMode.major⟩) bufC "medium"
      = (none, some ⟨⟨0, by norm_num⟩, KMode.major⟩) ∧
    detectKeyEnsemble (detectKeyEnsemble none bufC "medium").2 bufC "medium"
      = (none, (detectKeyEnsemble none bufC "medium").2) :=
  ⟨(detector_threshold_and_hysteresis
      (some ⟨⟨0, by norm_num⟩, KMode.major⟩) bufC "medium").2.2.2.1
      _ eval_finalPick_bufC (Or.inr rfl),
   (detector_threshold_and_hysteresis none bufC "medium").2.2.2.2⟩

/-- **C4 (counterexample).** For the seven-C-plus-one-G buffer the ensemble
returns confidence 94, while `score × 400 × agreementBonus` is
`11802/125 = 94.416`, which the claimed clamp to `[0, 100]` leaves unchanged —
so the returned confidence does **not** equal the clamped product (the code
rounds and never clamps). -/
theorem c4_confidence_not_exact_product :
    detectKeyEnsemble none bufCG "medium"
      = (some { key := ⟨⟨0, by norm_num⟩, KMode.major⟩, confidence := 94,
                agreement := 3 }, some ⟨⟨0, by norm_num⟩, KMode.major⟩) ∧
    finalPick (keyVotes bufCG)
      = some { key := ⟨⟨0, by norm_num⟩, KMode.major⟩,
               weightedScore := 1967/10000, voteCount := 3 } ∧
    (1967/10000 : ℚ) * 400 * agreementBonus 3 = 11802/125 ∧
    max 0 (min 100 (11802/125 : ℚ)) = 11802/125 ∧
    (94 : ℚ) ≠ 11802/125 :=
  ⟨eval_detect_bufCG, eval_finalPick_bufCG,
    by norm_num [agreementBonus], by norm_num, by norm_num⟩

/-- Every vote accumulated by folding `insertVote` has a weighted score
between 0 and the total contributed weight, and a vote count bounded by the
number of contributions. -/
theorem insertVote_fold_bound {α : Type} (key : α → DKey) (wt : α → ℚ)
    (l : List α) (B : ℚ) (n : ℕ) (acc : List KeyVote)
    (hB : 0 ≤ B)
    (hacc : ∀ v ∈ acc, 0 ≤ v.weightedScore ∧ v.weightedScore ≤ B ∧
      v.voteCount ≤ n)
    (hl : ∀ a ∈ l, 0 ≤ wt a) :
    ∀ v ∈ l.foldl (fun vs a => insertVote vs (key a) (wt a)) acc,
      0 ≤ v.weightedScore ∧ v.weightedScore ≤ B + (l.map wt).sum ∧
      v.voteCount ≤ n + l.length := by
  induction l generalizing acc B n with
  | nil => simpa using hacc
  | cons p rest ih =>
    have hp : 0 ≤ wt p := hl p (List.mem_cons_self p rest)
    have hstep : ∀ w ∈ insertVote acc (key p) (wt p),
        0 ≤ w.weightedScore ∧ w.weightedScore ≤ B + wt p ∧
        w.voteCount ≤ n + 1 := by
      intro w hw
      rw [insertVote] at hw
      by_cases hpresent : acc.any (fun v => v.key = key p)
      · rw [if_pos hpresent] at hw
        obtain ⟨v, hv, hweq⟩ := List.mem_map.mp hw
        obtain ⟨hv0, hvB, hvn⟩ := hacc v hv
        by_cases hkey : v.key = key p
        · rw [if_pos hkey] at hweq
          subst hweq
          refine ⟨?_, ?_, ?_⟩
          · show 0 ≤ v.weightedScore + wt p
            positivity
          · show v.weightedScore + wt p ≤ B + wt p
            linarith
          · show v.voteCount + 1 ≤ n + 1
            omega
        · rw [if_neg hkey] at hweq
          subst hweq
          exact ⟨hv0, by linarith, by omega⟩
      · rw [if_neg hpresent] at hw
        rcases List.mem_append.mp hw with hin | hnew
        · obtain ⟨hv0, hvB, hvn⟩ := hacc w hin
          exact ⟨hv0, by linarith, by omega⟩
        · rw [List.mem_singleton] at hnew
          subst hnew
          refine ⟨hp, ?_, ?_⟩
          · show wt p ≤ B + wt p
            linarith
          · show 1 ≤ n + 1
            omega
    intro v hv
    rw [List.foldl_cons] at hv
    have := ih (B + wt p) (n + 1) (insertVote acc (key p) (wt p))
      (by positivity) hstep (fun a ha => hl a (List.mem_cons_of_mem p ha)) v hv
    refine ⟨this.1, ?_, ?_⟩
    · have h2 := this.2.1
      rw [List.map_cons, List.sum_cons]
      linarith
    · have h3 := this.2.2
      rw [List.length_cons]
      omega

/-- `finalPick` returns an element of the vote list. -/
theorem finalPick_mem {votes : List KeyVote} {fv : KeyVote}
    (h : finalPick votes = some fv) : fv ∈ votes := by
  rw [finalPick] at h
  have : ∀ (l : List KeyVote) (acc : Option KeyVote),
      (l.foldl (fun acc v => match acc with
        | none => some v
        | some a => if v.weightedScore > a.weightedScore then some v
            else some a) acc) = some fv →
      fv ∈ l ∨ acc = some fv := by
    intro l
    induction l with
    | nil => intro acc h; exact Or.inr h
    | cons x xs ih =>
      intro acc h
      rw [List.foldl_cons] at h
      rcases acc with _ | a
      · dsimp only at h
        rcases ih (some x) h with hmem | heq
        · exact Or.inl (List.mem_cons_of_mem x hmem)
        · rw [Option.some_inj] at heq
          exact Or.inl (heq ▸ List.mem_cons_self x xs)
      · dsimp only at h
        by_cases hx : x.weightedScore > a.weightedScore
        · rw [if_pos hx] at h
          rcases ih (some x) h with hmem | heq
          · exact Or.inl (List.mem_cons_of_mem x hmem)
          · rw [Option.some_inj] at heq
            exact Or.inl (heq ▸ List.mem_cons_self x xs)
        · rw [if_neg hx] at h
          rcases ih (some a) h with hmem | heq
          · exact Or.inl (List.mem_cons_of_mem x hmem)
          · exact Or.inr heq
  rcases this votes none h with hmem | heq
  · exact hmem
  · exact absurd heq (by simp)

/-- The agreement bonus lies in `[0.8, 1.2]`. -/
theorem agreementBonus_bounds (n : ℕ) :
    (8/10 : ℚ) ≤ agreementBonus n ∧ agreementBonus n ≤ 12/10 := by
  rw [agreementBonus]
  split_ifs <;> norm_num

set_option maxRecDepth 4000 in
/-- Every vote of `keyVotes` has weighted score in
`[0, 0.45·0.238 + 0.35·0.179 + 0.20·0.152] = [0, 20015/100000]` and a count of
at most 3, provided the buffer is non-empty. -/
theorem keyVotes_bounds (buffer : List ℕ) (ht : totalCount buffer ≠ 0) :
    ∀ v ∈ keyVotes buffer, 0 ≤ v.weightedScore ∧
      v.weightedScore ≤ 20015/100000 ∧ v.voteCount ≤ 3 := by
  have hAS := pickBestKey_bound
    (fun x => 0 ≤ x ∧ x ≤ 238/1000)
    (keyScore (normalizedHistogram buffer) albrechtShanahanProfile)
    (keyScore_bounds buffer ht (by norm_num) albrechtShanahan_entry_bounds)
  have hT := pickBestKey_bound
    (fun x => 0 ≤ x ∧ x ≤ 179/1000)
    (keyScore (normalizedHistogram buffer) temperleyProfile)
    (keyScore_bounds buffer ht (by norm_num) temperley_entry_bounds)
  have hKK := pickBestKey_bound
    (fun x => 0 ≤ x ∧ x ≤ 152/1000)
    (keyScore (normalizedHistogram buffer) krumhanslKesslerProfile)
    (keyScore_bounds buffer ht (by norm_num) krumhanslKessler_entry_bounds)
  have hpb : profileBests buffer =
      [((pickBestKey (keyScore (normalizedHistogram buffer)
            albrechtShanahanProfile)).1,
        (pickBestKey (keyScore (normalizedHistogram buffer)
            albrechtShanahanProfile)).2, 45/100),
       ((pickBestKey (keyScore (normalizedHistogram buffer)
            temperleyProfile)).1,
        (pickBestKey (keyScore (normalizedHistogram buffer)
            temperleyProfile)).2, 35/100),
       ((pickBestKey (keyScore (normalizedHistogram buffer)
            krumhanslKesslerProfile)).1,
        (pickBestKey (keyScore (normalizedHistogram buffer)
            krumhanslKesslerProfile)).2, 20/100)] := by
    rw [profileBests, ensembleProfiles]
    rfl
  intro v hv
  have hfold := insertVote_fold_bound (fun b => b.1)
    (fun b : DKey × ℚ × ℚ => b.2.2 * b.2.1) (profileBests buffer) 0 0 []
    (le_refl 0) (by simp) ?_ v ?_
  · have hsum : ((profileBests buffer).map
        (fun b : DKey × ℚ × ℚ => b.2.2 * b.2.1)).sum ≤ 20015/100000 := by
      rw [hpb]
      simp only [List.map_cons, List.map_nil, List.sum_cons, List.sum_nil]
      linarith [hAS.1, hAS.2, hT.1, hT.2, hKK.1, hKK.2]
    obtain ⟨h0, hB, hn⟩ := hfold
    refine ⟨h0, le_trans hB (by linarith), ?_⟩
    have hlen : (profileBests buffer).length = 3 := by rw [hpb]; rfl
    omega
  · intro a ha
    rw [hpb] at ha
    simp only [List.mem_cons, List.not_mem_nil, or_false] at ha
    rcases ha with rfl | rfl | rfl
    · exact mul_nonneg (by norm_num) hAS.1
    · exact mul_nonneg (by norm_num) hT.1
    · exact mul_nonneg (by norm_num) hKK.1
  · rw [keyVotes] at hv
    exact hv

set_option maxRecDepth 8000 in
/-- **C4 (amended).** Every estimate actually returned by the ensemble has
`confidence = round(finalScore × 400 × agreementBonus)` — rounded, with no
explicit clamp in the code — and that value always lies in `[0, 100]`
(the product is at most 96.072 for the shipped profiles and weights), with
an agreement count of at most 3. -/
theorem confidence_rounded_and_bounded (ck : Option DKey) (buffer : List ℕ)
    (s : String) (est : KeyEstimate) (ck' : Option DKey)
    (h : detectKeyEnsemble ck buffer s = (some est, ck')) :
    (∃ fv, finalPick (keyVotes buffer) = some fv ∧
      est.confidence
        = jsRound (fv.weightedScore * 400 * agreementBonus fv.voteCount) ∧
      est.agreement = fv.voteCount) ∧
    0 ≤ est.confidence ∧ est.confidence ≤ 100 ∧ est.agreement ≤ 3 := by
  by_cases ht : totalCount buffer = 0
  · simp [detectKeyEnsemble, ht] at h
  rcases hfp : finalPick (keyVotes buffer) with _ | fv
  · simp [detectKeyEnsemble, ht, hfp] at h
  by_cases hg : fv.weightedScore ≥ sensitivityThreshold s ∧ some fv.key ≠ ck
  case neg =>
    have hres : detectKeyEnsemble ck buffer s = (none, ck) := by
      simp only [detectKeyEnsemble, if_neg ht, hfp]
      rw [if_neg hg]
    rw [hres] at h
    simp at h
  case pos =>
    have hres : detectKeyEnsemble ck buffer s
        = (some (KeyEstimate.mk fv.key
            (jsRound (fv.weightedScore * 400 * agreementBonus fv.voteCount))
            fv.voteCount), some fv.key) := by
      simp only [detectKeyEnsemble, if_neg ht, hfp]
      rw [if_pos hg]
    rw [hres] at h
    have hest : est = KeyEstimate.mk fv.key
        (jsRound (fv.weightedScore * 400 * agreementBonus fv.voteCount))
        fv.voteCount := by
      have := congrArg Prod.fst h
      simp only [Prod.fst] at this
      exact (Option.some_inj.mp this).symm
    subst hest
    obtain ⟨hws0, hwsB, hcnt⟩ := keyVotes_bounds buffer ht fv (finalPick_mem hfp)
    obtain ⟨hb1, hb2⟩ := agreementBonus_bounds fv.voteCount
    have hbpos : (0 : ℚ) ≤ agreementBonus fv.voteCount := by linarith
    have hx0 : 0 ≤ fv.weightedScore * 400 * agreementBonus fv.voteCount := by
      positivity
    have hxB : fv.weightedScore * 400 * agreementBonus fv.voteCount
        ≤ 12009/125 := by
      nlinarith [mul_le_mul hwsB hb2 hbpos
        (by norm_num : (0 : ℚ) ≤ 20015/100000)]
    refine ⟨⟨fv, rfl, rfl, rfl⟩, ?_, ?_, hcnt⟩
    · show (0 : ℤ) ≤ jsRound _
      rw [jsRound]
      exact Int.floor_nonneg.mpr (by linarith)
    · show jsRound _ ≤ 100
      rw [jsRound]
      calc ⌊fv.weightedScore * 400 * agreementBonus fv.voteCount + 1/2⌋
          ≤ ⌊(96572/1000 : ℚ)⌋ := Int.floor_le_floor (by linarith)
        _ = 96 := by norm_num
        _ ≤ 100 := by norm_num

/-- Witness for the amended C4: the all-C buffer's estimate (confidence 55,
agreement 2) satisfies the rounding equation and the bounds. -/
theorem confidence_bounds_witness :
    (∃ fv, finalPick (keyVotes bufC) = some fv ∧
      (⟨⟨⟨0, by norm_num⟩, KMode.major⟩, 55, 2⟩ : KeyEstimate).confidence
        = jsRound (fv.weightedScore * 400 * agreementBonus fv.voteCount) ∧
      (⟨⟨⟨0, by norm_num⟩, KMode.major⟩, 55, 2⟩ : KeyEstimate).agreement
        = fv.voteCount) ∧
    0 ≤ (⟨⟨⟨0, by norm_num⟩, KMode.major⟩, 55, 2⟩ : KeyEstimate).confidence ∧
    (⟨⟨⟨0, by norm_num⟩, KMode.major⟩, 55, 2⟩ : KeyEstimate).confidence ≤ 100 ∧
    (⟨⟨⟨0, by norm_num⟩, KMode.major⟩, 55, 2⟩ : KeyEstimate).agreement ≤ 3 :=
  confidence_rounded_and_bounded none bufC "medium" _ _ eval_detect_bufC

/-- **C9 (counterexample).** A probe timeout does **not** demote to
ChannelRotation: when both probes of `afterOutputSelected` time out
(`probeIdentity` resolves `null`, `probeMtsDump` resolves `false`), the state
merely reports MTS support as unknown and the fine-SysEx path stays active for
the next note-on; moreover in the `tuning-mts.js` snapshot,
`detectMTSSupport` with SysEx granted and no saved preference promotes
straight to MTS without any probing at all. -/
theorem c9_probe_timeout_does_not_demote :
    afterOutputSelected initialScript5State none false
      = { initialScript5State with statusMtsConfirmed := false } ∧
    script5UsesSysEx (afterOutputSelected initialScript5State none false)
      = true ∧
    detectMTSSupport initialMTSState true true none false
      = { mtsSupported := true, mtsDetectionAttempted := true,
          mtsFallbackRequested := false, currentTuningMode := "MTS" } := by
  refine ⟨rfl, rfl, ?_⟩
  rw [detectMTSSupport]
  rw [if_neg (by simp [initialMTSState])]
  rw [if_neg (by simp)]
  rw [if_neg (by simp)]
  rw [if_neg (by simp)]
  rfl

/-- **C9 (amended).** Capability negotiation: (1) without SysEx permission the
mode goes directly to ChannelRotation (MPE); (2) a persisted `'MPE'` user
preference bypasses probing and forces MPE; (3) an identity-probe response
records the responding device id, which `createMtsSysex` then embeds
(`& 0x7F`) in subsequent per-note messages; (4) **no response within the probe
timeouts does not demote** — it only marks MTS support as unconfirmed and
leaves the SysEx note-on path exactly as it was; (5) a dump-probe response
merely reports `'MTS Confirmed'`. -/
theorem capability_negotiation_transitions :
    (∀ (s : MTSState) (pref : Option String) (thr : Bool),
      s.mtsDetectionAttempted = false →
      (detectMTSSupport s true false pref thr).currentTuningMode = "MPE" ∧
      (detectMTSSupport s true false pref thr).mtsSupported = false) ∧
    (∀ (s : MTSState) (thr : Bool),
      s.mtsDetectionAttempted = false →
      (detectMTSSupport s true true (some "MPE") thr).currentTuningMode
        = "MPE" ∧
      (detectMTSSupport s true true (some "MPE") thr).mtsFallbackRequested
        = true) ∧
    (∀ (s : Script5State) (d : ℕ) (dump : Bool),
      (afterOutputSelected s (some d) dump).lastDeviceId = d ∧
      createMtsSysexDeviceId (afterOutputSelected s (some d) dump)
        = d % 128) ∧
    (∀ (s : Script5State),
      script5UsesSysEx (afterOutputSelected s none false)
        = script5UsesSysEx s ∧
      (afterOutputSelected s none false).statusMtsConfirmed = false) ∧
    (∀ (s : Script5State) (idr : Option ℕ),
      (afterOutputSelected s idr true).statusMtsConfirmed = true) := by
  refine ⟨?_, ?_, ?_, ?_, ?_⟩
  · intro s pref thr h
    rw [detectMTSSupport, if_neg (by simp [h])]
    simp
  · intro s thr h
    rw [detectMTSSupport, if_neg (by simp [h])]
    simp
  · intro s d dump
    exact ⟨rfl, rfl⟩
  · intro s
    exact ⟨rfl, rfl⟩
  · intro s idr
    cases idr <;> rfl

/-- Witness for the amended C9 at concrete states: the fresh module state and
device id 5. -/
theorem capability_negotiation_witness :
    ((detectMTSSupport initialMTSState true false none false).currentTuningMode
        = "MPE" ∧
      (detectMTSSupport initialMTSState true false none
        false).mtsSupported = false) ∧
    ((detectMTSSupport initialMTSState true true (some "MPE")
        false).currentTuningMode = "MPE" ∧
      (detectMTSSupport initialMTSState true true (some "MPE")
        false).mtsFallbackRequested = true) ∧
    ((afterOutputSelected initialScript5State (some 5) false).lastDeviceId
        = 5 ∧
      createMtsSysexDeviceId
        (afterOutputSelected initialScript5State (some 5) false) = 5 % 128) ∧
    (script5UsesSysEx (afterOutputSelected initialScript5State none false)
      = script5UsesSysEx initialScript5State ∧
      (afterOutputSelected initialScript5State none
        false).statusMtsConfirmed = false) :=
  ⟨capability_negotiation_transitions.1 initialMTSState none false rfl,
   capability_negotiation_transitions.2.1 initialMTSState false rfl,
   capability_negotiation_transitions.2.2.1 initialScript5State 5 false,
   capability_negotiation_transitions.2.2.2.1 initialScript5State⟩

end InstantHarmonies
